import Mathlib

set_option maxHeartbeats 1000000

/-
Shallow embedding of `src/transformers/generation/stopping_criteria.py`
(the stop-string stopping criteria and the stopping-criteria list).

Conventions of the embedding:
* Python `str` values (tokens, stop strings) are lists of characters (`Str`).
* torch tensors are lists (per batch row) and index functions over `Nat`
  positions; all arithmetic is over `Int`/`Nat`.
* numpy in-place writes on `gather_vec` are explicit state passing over
  `List (List Int)`.
* Python exceptions (IndexError on `token[0]` / `gather_vec[idx]`,
  ValueError of `max()` on an empty iterable, torch's refusal to reduce an
  empty dimension in `amax`, and `F.embedding` on an out-of-range id) are
  all embedded as `Option.none`.
-/

/-- A Python string (token text or stop string) as a list of characters. -/
abbrev Str := List Char

/-- Python `range(a, b)` over the integers. -/
def intRange (a b : Int) : List Int :=
  (List.range (b - a).toNat).map (fun k => a + Int.ofNat k)

/-- Python `max(xs)` on a list of naturals: raises `ValueError` (here `none`)
on an empty list. -/
def maxNat : List Nat → Option Nat
  | [] => none
  | x :: xs => some (xs.foldl Nat.max x)

/-- `torch.amax` over a reduction slab flattened to a list: reducing an empty
slab is an error (`none`). -/
def amaxInt : List Int → Option Int
  | [] => none
  | x :: xs => some (xs.foldl max x)

/-- Sequence a list of optional values (all-or-nothing, like a batched gather). -/
def seqOpt : List (Option α) → Option (List α)
  | [] => some []
  | o :: os =>
    match o, seqOpt os with
    | some x, some xs => some (x :: xs)
    | _, _ => none

/-- Option-valued left fold (explicit state passing for imperative loops that
can raise). -/
def foldOpt (f : β → α → Option β) : β → List α → Option β
  | b, [] => some b
  | b, a :: l =>
    match f b a with
    | none => none
    | some b2 => foldOpt f b2 l

/-- `_cleanup_token` (source lines 364-369).  A leading `"▁"` or `"Ġ"` becomes
a literal space.  The `elif token[0] == "##"` branch compares the
one-character string `token[0]` with the two-character string `"##"`, which
can never be equal, so that branch is dead code and nothing is ever stripped.
On an empty token `token[0]` raises IndexError, embedded as `none`. -/
def cleanup_token : Str → Option Str
  | [] => none
  | c :: rest => some (if c = '▁' ∨ c = 'Ġ' then ' ' :: rest else c :: rest)

/-- Total restriction of `cleanup_token` used on nonempty tokens in the
analysis (it agrees with `cleanup_token` there). -/
def cleanupF : Str → Str
  | [] => []
  | c :: rest => if c = '▁' ∨ c = 'Ġ' then ' ' :: rest else c :: rest

/-- The body of the `for i in range(1 - len(token), len(stop_string))` loop of
`_stop_string_get_matching_positions` (source lines 381-392) for one offset
`i`: produces the appended `matching_positions` entry and/or the appended
`possible_end_lengths` entry.  `rft` is the reversed normalized token, `rs`
the reversed stop string. -/
def alignStep (rft rs : Str) (i : Int) : Option Int × Option Int :=
  let tok := if i < 0 then rft.drop (-i).toNat else rft
  let j : Int := if i < 0 then 0 else i
  let stop := (rs.drop j.toNat).take tok.length
  if stop.isPrefixOf tok then
    if j = 0 then (none, some ((min tok.length stop.length : Nat) : Int))
    else (some j, none)
  else (none, none)

/-- The full alignment scan for one (token, stop string) pair: the
`matching_positions` and `possible_end_lengths` lists accumulated in loop
order (source lines 379-392). -/
def tokenAlignment (token : Str) (rft : Str) (stop_string : Str) : List Int × List Int :=
  (intRange (1 - (token.length : Int)) (stop_string.length : Int)).foldl
    (fun acc i =>
      (acc.1 ++ (alignStep rft stop_string.reverse i).1.toList,
       acc.2 ++ (alignStep rft stop_string.reverse i).2.toList))
    ([], [])

/-- `_stop_string_get_matching_positions` (source lines 353-398): per stop
string, the association lists `token_valid_positions[stop_string]` and
`token_end_overlaps[stop_string]` in dict insertion order (= vocabulary
order); only tokens with a nonempty list are inserted. -/
def _stop_string_get_matching_positions (token_list : List Str) (tok_indices : List Nat)
    (stop_strings : List Str) :
    Option (List (List (Nat × List Int)) × List (List (Nat × List Int))) :=
  (seqOpt (token_list.map cleanup_token)).map (fun cleaned =>
    let rfts := cleaned.map List.reverse
    let toks := (token_list.zip rfts).zip tok_indices
    (stop_strings.map (fun s =>
      toks.filterMap (fun e =>
        let p := (tokenAlignment e.1.1 e.1.2 s).1
        if p.isEmpty then none else some (e.2, p))),
     stop_strings.map (fun s =>
      toks.filterMap (fun e =>
        let p := (tokenAlignment e.1.1 e.1.2 s).2
        if p.isEmpty then none else some (e.2, p)))))

/-- numpy row-slice assignment `row[start : start + len vals] = vals`
(always in-bounds where used). -/
def setSlice (row : List Int) (start : Nat) (vals : List Int) : List Int :=
  row.take start ++ vals ++ row.drop (start + vals.length)

/-- A fold of per-row table writes `gather_vec[key e, ...] = ...`; fails
(IndexError) when a row index is out of range. -/
def foldWrite (key : ε → Nat) (upd : ε → List Int → List Int)
    (tbl : List (List Int)) (es : List ε) : Option (List (List Int)) :=
  foldOpt (fun t e =>
    match t[key e]? with
    | none => none
    | some row => some (t.set (key e) (upd e row))) tbl es

/-- `_stop_string_create_embedding_vec` (source lines 401-437): computes the
per-pair position/end-overlap lists, takes the maxima of their cardinalities
(`max()` raising on empty), allocates `gather_vec` of shape
`len(token_list) × vec_size` filled with the sentinel `-1`, and performs the
numpy slice assignments per stop string, including the per-token final-column
`token_length` writes (which loop over all tokens inside the stop-string
loop). -/
def _stop_string_create_embedding_vec (token_list : List Str) (tok_indices : List Nat)
    (stop_strings : List Str) : Option (List (List Int) × Nat × Nat) :=
  (_stop_string_get_matching_positions token_list tok_indices stop_strings).bind (fun gmp =>
    (maxNat ((gmp.1.map (fun d => d.map (fun e => e.2.length))).flatten)).bind (fun mvp =>
      (maxNat ((gmp.2.map (fun d => d.map (fun e => e.2.length))).flatten)).bind (fun mvel =>
        let S := stop_strings.length
        let vecSize := S * (mvp + mvel) + 1
        let tbl0 : List (List Int) :=
          List.replicate token_list.length (List.replicate vecSize (-1))
        let step := fun (tbl : List (List Int)) (i : Nat) =>
          (foldWrite (fun e => e.1) (fun e row => setSlice row (mvp * i) e.2)
              tbl (gmp.1.getD i [])).bind (fun t1 =>
            (foldWrite (fun e => e.1)
                (fun e row => setSlice row (mvp * S + mvel * i) e.2) t1
                (gmp.2.getD i [])).bind (fun t2 =>
              foldWrite (fun e => e.2)
                (fun e row => row.set (row.length - 1) (e.1.length : Int))
                t2 (token_list.zip tok_indices)))
        (foldOpt step tbl0 (List.range S)).map (fun tbl => (tbl, mvp, mvel)))))

/-- The state of a constructed `StopStringCriteria` (fields set by
`__init__`, source lines 251-264). -/
structure StopConfig where
  embedding_vec : List (List Int)
  max_valid_positions : Nat
  max_valid_end_lens : Nat
  num_stop_strings : Nat
  maximum_token_len : Nat
  target_lens : List Int
deriving DecidableEq

/-- `StopStringCriteria.__init__` (source lines 251-264). -/
def StopStringCriteria_mk (token_list : List Str) (tok_indices : List Nat)
    (stop_strings : List Str) : Option StopConfig :=
  (_stop_string_create_embedding_vec token_list tok_indices stop_strings).bind (fun v =>
    (maxNat (stop_strings.map List.length)).map (fun mlen =>
      { embedding_vec := v.1, max_valid_positions := v.2.1, max_valid_end_lens := v.2.2,
        num_stop_strings := stop_strings.length, maximum_token_len := mlen,
        target_lens := stop_strings.map (fun s => (s.length : Int)) }))

/-- Python slice `l[-n:]` (with the `-0` quirk: `n = 0` yields the whole
list), used for `input_ids[:, -self.maximum_token_len:]` (line 272). -/
def sliceLast (n : Nat) (l : List α) : List α :=
  if n = 0 then l else l.drop (l.length - n)

/-- Valid-position slot `k` for stop string `j` of a gathered embedding row
(the `valid_positions` split, source lines 284-286). -/
def validPosSlot (cfg : StopConfig) (row : List Int) (j k : Nat) : Int :=
  row.getD (cfg.max_valid_positions * j + k) (-1)

/-- End-overlap slot `k` for stop string `j` of a gathered embedding row
(the `end_lengths` split, source lines 289-291). -/
def endLenSlot (cfg : StopConfig) (row : List Int) (j k : Nat) : Int :=
  row.getD (cfg.max_valid_positions * cfg.num_stop_strings +
    cfg.max_valid_end_lens * j + k) (-1)

/-- The trailing `token_length` entry of a gathered embedding row
(`embedded[:, :, -1]`, source line 293). -/
def tokenLenOf (row : List Int) : Int := row.getD (row.length - 1) 0

/-- Entry `t` of `lengths_with_ends` for stop `j` and end-overlap branch `k`
(source lines 295-297): the branch's end length for the newest token
(`t = 0`), the token length otherwise.  `emb` is the gathered embedding for
the reversed window (newest first). -/
def lenAt (cfg : StopConfig) (emb : List (List Int)) (j k t : Nat) : Int :=
  if t = 0 then endLenSlot cfg (emb.getD 0 []) j k else tokenLenOf (emb.getD t [])

/-- `cumsum(dim=1)` of `lengths_with_ends` (source line 300). -/
def cumAt (cfg : StopConfig) (emb : List (List Int)) (j k : Nat) : Nat → Int
  | 0 => lenAt cfg emb j k 0
  | t + 1 => cumAt cfg emb j k t + lenAt cfg emb j k (t + 1)

/-- The `match` vector (source lines 304-311): `initial_match` at `t = 0`
(`end_lengths > 0`), `later_match` at `t ≥ 1` (the cumulative sum so far
equals one of the token's valid-position slots). -/
def matchAt (cfg : StopConfig) (emb : List (List Int)) (j k t : Nat) : Bool :=
  if t = 0 then decide (0 < endLenSlot cfg (emb.getD 0 []) j k)
  else (List.range cfg.max_valid_positions).any
    (fun k2 => validPosSlot cfg (emb.getD t []) j k2 == cumAt cfg emb j k (t - 1))

/-- The cumulative mask `(~match).cumsum(dim=1) == 0` (source lines 313-315):
true while every position so far matched. -/
def maskAt (cfg : StopConfig) (emb : List (List Int)) (j k : Nat) : Nat → Bool
  | 0 => matchAt cfg emb j k 0
  | t + 1 => maskAt cfg emb j k t && matchAt cfg emb j k (t + 1)

/-- `cumsum * mask` (source line 319). -/
def maskedCumAt (cfg : StopConfig) (emb : List (List Int)) (j k t : Nat) : Int :=
  if maskAt cfg emb j k t then cumAt cfg emb j k t else 0

/-- `torch.amax(cumsum * mask, dim=(1, -1)) >= target_lens[j]` for one stop
string (source line 319): the reduction slab ranges over all window positions
and all end-overlap branches. -/
def stringMatched (cfg : StopConfig) (emb : List (List Int)) (j : Nat) : Option Bool :=
  match amaxInt (((List.range emb.length).map (fun t =>
      (List.range cfg.max_valid_end_lens).map (fun k => maskedCumAt cfg emb j k t))).flatten) with
  | none => none
  | some v => some (decide (cfg.target_lens.getD j 0 ≤ v))

/-- The per-row body of `StopStringCriteria.__call__` after the window slice
(source lines 274-322): flip the window, gather each token's embedding row
(`F.embedding` fails on an out-of-range id), run the masked cumulative-sum
match per stop string, and report whether any stop string matched
(`torch.any(string_matches, dim=-1)`). -/
def evalWindow (cfg : StopConfig) (window : List Nat) : Option Bool :=
  match seqOpt (window.reverse.map (fun i => cfg.embedding_vec[i]?)) with
  | none => none
  | some emb =>
    if emb.length = 0 then none
    else
      match seqOpt ((List.range cfg.num_stop_strings).map (stringMatched cfg emb)) with
      | none => none
      | some sm => some (sm.any id)

/-- One row of `StopStringCriteria.__call__` (source lines 266-322): slice to
the last `maximum_token_len` token ids, then evaluate the window. -/
def evalRow (cfg : StopConfig) (row : List Nat) : Option Bool :=
  evalWindow cfg (sliceLast cfg.maximum_token_len row)

/-- `StopStringCriteria.__call__` over a batch: each row is processed
independently by identical fixed-shape operations; the `scores` argument is
accepted for interface uniformity and never used. -/
def StopStringCriteria_call {σ : Type} (cfg : StopConfig) (input_ids : List (List Nat))
    (scores : σ) : Option (List Bool) :=
  seqOpt (input_ids.map (evalRow cfg))

/-- `StoppingCriteriaList.__call__` (source lines 325-331): start from
all-false and OR in each member criterion's per-row result. -/
def StoppingCriteriaList_call {σ : Type} (criteria : List (List (List Nat) → σ → List Bool))
    (input_ids : List (List Nat)) (scores : σ) : List Bool :=
  criteria.foldl (fun done c => done.zipWith (fun a b => a || b) (c input_ids scores))
    (List.replicate input_ids.length false)

/-- Construction followed by a single-row evaluation (used to state concrete
scenarios without spelling out the intermediate table). -/
def mkAndEvalRow (token_list : List Str) (tok_indices : List Nat)
    (stop_strings : List Str) (row : List Nat) : Option Bool :=
  match StopStringCriteria_mk token_list tok_indices stop_strings with
  | none => none
  | some cfg => evalRow cfg row

/-- The warnings emitted while building the lookup table.  The construction
path of the source (`__init__`, `_stop_string_get_matching_positions`,
`_stop_string_create_embedding_vec`, lines 251-264 and 353-437) contains no
warning or logging statement at all, so the emitted warning list is
constantly empty. -/
def constructionWarnings (token_list : List Str) (tok_indices : List Nat)
    (stop_strings : List Str) : List String := []

/-- The token string registered for vocabulary id `i` (unique when the ids
are `Nodup`). -/
def tokenOf (token_list : List Str) (tok_indices : List Nat) (i : Nat) : Str :=
  (((token_list.zip tok_indices).find? (fun e => e.2 == i)).map (fun e => e.1)).getD []

/-- The normalized (cleaned) texts of a row of token ids. -/
def rowTexts (token_list : List Str) (tok_indices : List Nat) (row : List Nat) : List Str :=
  row.map (fun i => cleanupF (tokenOf token_list tok_indices i))

/-- Spec-modelled predicate, following the spec's result guarantee literally:
"a stop string is reported matched for a row if and only if it is a literal
substring of the concatenation of that row's generated tokens' text and that
substring's occurrence ends exactly at the current end of the sequence" —
i.e. some stop string is a suffix of the concatenated normalized texts. -/
def specEndsExactly (stop_strings : List Str) (texts : List Str) : Bool :=
  stop_strings.any (fun s => s.isSuffixOf texts.flatten)

/-- Spec-modelled predicate for the amended result guarantee: some stop
string occurs as a literal substring of the concatenated normalized texts
with the occurrence ending strictly after the start of the final token's
text (it may end at or before the end of that token). -/
def specMatchOverlapFinal (stop_strings : List Str) (texts : List Str) : Bool :=
  let W := texts.flatten
  let m0 := (texts.getLastD []).length
  stop_strings.any (fun s =>
    (List.range (W.length + 1)).any (fun p =>
      decide (s.length ≤ p) && decide (W.length - m0 < p) &&
        ((W.drop (p - s.length)).take s.length == s)))

/-- Right padding with the sentinel `-1` to the fixed slot width (how a
written slot block reads back from the table). -/
def padTo (w : Nat) (l : List Int) : List Int := l ++ List.replicate (w - l.length) (-1)

/-- The alignment lists of a vocabulary token against a stop string (the
token normalized as the source does). -/
def alignOf (token : Str) (s : Str) : List Int × List Int :=
  tokenAlignment token (cleanupF token).reverse s

/-- The writes performed on one token's embedding row while processing stop
string number `j` (valid-position slots, end-overlap slots, token length),
used to analyse the construction fold. -/
def tableStep (mvp mvel S : Nat) (P E : Nat → List Int) (L : Int) (j : Nat)
    (row : List Int) : List Int :=
  (setSlice (setSlice row (mvp * j) (P j)) (mvp * S + mvel * j) (E j)).set
    ((setSlice (setSlice row (mvp * j) (P j)) (mvp * S + mvel * j) (E j)).length - 1) L

/-- Semantic valid position: the normalized token text `c` may sit with its
end `i` characters before the end of stop string `s` (as a non-final chain
element), every overlapped character matching; `1 ≤ i ≤ len s - 1`. -/
def validPosSem (c s : Str) (i : Nat) : Prop :=
  1 ≤ i ∧ i < s.length ∧
    (s.take (s.length - i)).drop (s.length - i - min c.length (s.length - i)) =
      c.drop (c.length - min c.length (s.length - i))

/-- Semantic end overlap: some prefix of length `q ≥ 1` of the normalized
final-token text `c` ends with the last `min q (len s)` characters of `s`;
the recorded overlap value is `min q (len s)`.  (The bound
`q < len c + len s` reflects the scan's upper offset bound; it is vacuous
unless `s` is empty.) -/
def endOverlapSem (c s : Str) (e : Nat) : Prop :=
  ∃ q : Nat, 1 ≤ q ∧ q ≤ c.length ∧ q < c.length + s.length ∧
    e = min q s.length ∧
    (c.take q).drop (q - min q s.length) = s.drop (s.length - min q s.length)

/-- Backward chain over the older (non-final) window texts, newest first:
starting with `pos` characters of `s` already matched, either the whole stop
string is covered, or the next-older text sits at valid position `pos` and
the chain continues. -/
def chainOk (s : Str) : Nat → List Str → Prop
  | pos, [] => s.length ≤ pos
  | pos, c :: rest =>
    s.length ≤ pos ∨ (validPosSem c s pos ∧ chainOk s (pos + c.length) rest)

/-- Cumulative matched length of the backwards scan: the end overlap `e` of
the newest text plus the lengths of the following `u` older texts (`cs` is
the window's normalized texts newest first). -/
def cumLen (cs : List Str) (e : Nat) : Nat → Nat
  | 0 => e
  | u + 1 => cumLen cs e u + (cs.getD (u + 1) []).length

/-- Semantics of the masked cumulative scan for one stop string `s`: some
end-overlap branch of the newest text chains backwards through valid
positions of the older texts and accumulates at least the full stop string
length. -/
def evalSem (s : Str) (cs : List Str) : Prop :=
  ∃ e t : Nat, endOverlapSem (cs.getD 0 []) s e ∧ t < cs.length ∧
    (∀ u, 1 ≤ u → u ≤ t → validPosSem (cs.getD u []) s (cumLen cs e (u - 1))) ∧
    s.length ≤ cumLen cs e t

/-- An occurrence of `s` in the text `W` ending strictly after position
`W.length - m0` (i.e. strictly inside the final token of length `m0`). -/
def occursEndingIn (s W : Str) (m0 : Nat) : Prop :=
  ∃ p : Nat, s.length ≤ p ∧ p ≤ W.length ∧ W.length - m0 < p ∧
    (W.drop (p - s.length)).take s.length = s

/-! Concrete scenarios used by the claims. -/

/-- The literal-scenario vocabulary (spec §8), zero-indexed. -/
def toksA : List Str :=
  ["st".data, "op".data, "stop".data, "opera".data, "sto".data, "pper".data,
   "las".data, "topper".data, "at".data, "tion".data]

def indsA : List Nat := [0, 1, 2, 3, 4, 5, 6, 7, 8, 9]

def stopsA : List Str := ["stop".data]

/-- The constructed state for (`toksA`, `indsA`, `stopsA`). -/
def cfgA : StopConfig :=
  { embedding_vec :=
      [[2, -1, 2], [-1, 2, 2], [-1, 4, 4], [-1, 2, 5], [1, -1, 3],
       [-1, 1, 4], [3, -1, 3], [-1, 3, 6], [-1, -1, 2], [-1, -1, 4]],
    max_valid_positions := 1, max_valid_end_lens := 1, num_stop_strings := 1,
    maximum_token_len := 4, target_lens := [4] }

/-- Vocabulary for the "banana" multi-alignment scenario. -/
def toksB : List Str := ["ba".data, "bana".data, "nana".data]

/-- Two-token vocabulary whose concatenation "lastopper" contains "stop"
ending strictly before the end of the text. -/
def toksL : List Str := ["las".data, "topper".data]

/-- Minimal vocabulary for the construction-edge-case scenarios. -/
def toksC : List Str := ["st".data, "op".data]

/-! Helper lemmas. -/

theorem sliceLast_nil {α : Type} (n : Nat) : sliceLast n ([] : List α) = [] := by
  unfold sliceLast
  split <;> simp

theorem seqOpt_nil {α : Type} : seqOpt ([] : List (Option α)) = some [] := rfl

theorem seqOpt_cons_none {α : Type} (os : List (Option α)) : seqOpt (none :: os) = none := by
  show (match (none : Option α), seqOpt os with
    | some x, some xs => some (x :: xs)
    | _, _ => none) = none
  cases seqOpt os <;> rfl

theorem seqOpt_cons_some {α : Type} (x : α) (os : List (Option α)) :
    seqOpt (some x :: os) = (seqOpt os).map (fun xs => x :: xs) := by
  show (match (some x : Option α), seqOpt os with
    | some x, some xs => some (x :: xs)
    | _, _ => none) = _
  cases seqOpt os <;> rfl

theorem flatten_map_const_nil {α β : Type} (l : List α) :
    (l.map (fun _ => ([] : List β))).flatten = [] := by
  induction l with
  | nil => rfl
  | cons a l ih => simpa using ih

theorem eq_range_map_getD (l : List Bool) (n : Nat) (h : l.length = n) :
    l = (List.range n).map (fun i => l.getD i false) := by
  apply List.ext_getElem
  · simp [h]
  · intro i h1 h2
    simp only [List.getElem_map, List.getElem_range]
    rw [List.getD_eq_getElem l false h1]

theorem any_map_comp {α β : Type} (l : List α) (f : α → β) (p : β → Bool) :
    (l.map f).any p = l.any (fun a => p (f a)) := by
  induction l with
  | nil => rfl
  | cons a l ih => simp only [List.map_cons, List.any_cons, ih]

theorem foldl_zipWith_or (rs : List (List Bool)) (acc : List Bool) (n : Nat)
    (hacc : acc.length = n) (hrs : ∀ r ∈ rs, r.length = n) :
    rs.foldl (fun done r => done.zipWith (fun a b => a || b) r) acc =
      (List.range n).map (fun i => acc.getD i false || rs.any (fun r => r.getD i false)) := by
  induction rs generalizing acc with
  | nil =>
    simpa using eq_range_map_getD acc n hacc
  | cons r rs ih =>
    have hr : r.length = n := hrs r (by simp)
    have hlen : (acc.zipWith (fun a b => a || b) r).length = n := by
      simp [hacc, hr]
    rw [List.foldl_cons, ih _ hlen (fun r2 hr2 => hrs r2 (by simp [hr2]))]
    apply List.map_congr_left
    intro i hi
    have hi2 : i < n := List.mem_range.mp hi
    have h1 : (acc.zipWith (fun a b => a || b) r).getD i false =
        (acc.getD i false || r.getD i false) := by
      rw [List.getD_eq_getElem _ _ (by omega : i < (acc.zipWith (fun a b => a || b) r).length),
        List.getElem_zipWith, List.getD_eq_getElem _ _ (by omega : i < acc.length),
        List.getD_eq_getElem _ _ (by omega : i < r.length)]
    rw [h1, List.any_cons]
    simp [Bool.or_assoc]

/-! Claim theorems. -/

/-- C1 (counterexample): with vocabulary {"las" ↦ 0, "topper" ↦ 1} and stop
string "stop", the history [0, 1] decodes to "lastopper", in which "stop"
occurs but no occurrence ends at the end of the text; yet the criteria
reports the row stopped, refuting the claimed if-and-only-if. -/
theorem C1_counterexample :
    mkAndEvalRow toksL [0, 1] stopsA [0, 1] = some true ∧
    specEndsExactly stopsA (rowTexts toksL [0, 1] [0, 1]) = false := by decide

/-- C2 (counterexample): with the literal-scenario ids 1..10 as given in the
claim, `gather_vec` is allocated with `len(token_list)` = 10 rows, so the
table write for the token with id 10 is out of bounds and construction fails
(IndexError) instead of succeeding. -/
theorem C2_counterexample :
    StopStringCriteria_mk toksA [1, 2, 3, 4, 5, 6, 7, 8, 9, 10] stopsA = none := by decide

/-- C2 (amended): with the same vocabulary re-indexed densely as 0..9,
construction succeeds and the eight evaluations return exactly the claimed
per-row results. -/
theorem C2_amended_eval :
    StopStringCriteria_mk toksA indsA stopsA = some cfgA ∧
    evalRow cfgA [0, 1] = some true ∧ evalRow cfgA [2] = some true ∧
    evalRow cfgA [0, 3] = some true ∧ evalRow cfgA [4, 5] = some true ∧
    evalRow cfgA [6, 7] = some true ∧ evalRow cfgA [2, 8] = some false ∧
    evalRow cfgA [0, 1, 8] = some false ∧ evalRow cfgA [0, 3, 9] = some false := by decide

/-- C3: for stop string "banana" the precomputer stores both end-overlap
lengths 2 and 4 for the token "nana", and both tokenizations ["ba", "nana"]
and ["bana", "nana"] of an ending in "banana" evaluate to true. -/
theorem C3_multi_alignment :
    (alignOf "nana".data "banana".data).2 = [2, 4] ∧
    mkAndEvalRow toksB [0, 1, 2] ["banana".data] [0, 2] = some true ∧
    mkAndEvalRow toksB [0, 1, 2] ["banana".data] [1, 2] = some true := by decide

/-- C5 (code evaluated at the failing input): a token beginning with the
two-character continuation marker "##" is returned unchanged (the guard
`token[0] == "##"` compares a one-character string with "##" and never
fires), while the word-start markers are indeed replaced by a space. -/
theorem C5_cleanup_bug :
    cleanup_token "##ab".data = some "##ab".data ∧
    cleanup_token "##ab".data ≠ some "ab".data ∧
    cleanup_token "▁ab".data = some " ab".data ∧
    cleanup_token "Ġab".data = some " ab".data := by decide

/-- C6 (counterexample): with vocabulary {"st" ↦ 0, "op" ↦ 1} and stop
strings ["stop", ""], construction succeeds even though one stop string is
the empty string, refuting "any empty stop string makes construction fail". -/
theorem C6_counterexample :
    (StopStringCriteria_mk toksC [0, 1] ["stop".data, "".data]).isSome = true := by decide

/-- C6 (amended): construction with an empty vocabulary always fails (the
`max()` over the recorded alignment cardinalities is taken over an empty
iterable), but an empty stop string is not itself rejected: alongside a
matchable stop string, construction succeeds. -/
theorem C6_amended :
    (∀ stop_strings : List Str, StopStringCriteria_mk [] [] stop_strings = none) ∧
    (StopStringCriteria_mk toksC [0, 1] ["stop".data, "".data]).isSome = true := by
  constructor
  · intro ss
    have h3 : ((ss.map (fun _ => ([] : List (Nat × List Int)))).map
        (fun d => d.map (fun e => e.2.length))).flatten = ([] : List Nat) := by
      rw [List.map_map]
      exact flatten_map_const_nil ss
    have hmp : _stop_string_get_matching_positions [] [] ss =
        some (ss.map (fun _ => []), ss.map (fun _ => [])) := rfl
    have hcreate : _stop_string_create_embedding_vec [] [] ss = none := by
      unfold _stop_string_create_embedding_vec
      rw [hmp]
      dsimp only [Option.some_bind]
      rw [h3]
      rfl
    unfold StopStringCriteria_mk
    rw [hcreate]
    rfl
  · decide

/-- C7 (counterexample): the stop string "zzz" has no valid alignment with
any vocabulary token, construction nevertheless succeeds — and the
construction path emits no warning at all, refuting "surfaces the condition
as a configuration warning". -/
theorem C7_counterexample :
    (alignOf "st".data "zzz".data = ([], []) ∧ alignOf "op".data "zzz".data = ([], [])) ∧
    (StopStringCriteria_mk toksC [0, 1] ["stop".data, "zzz".data]).isSome = true ∧
    constructionWarnings toksC [0, 1] ["stop".data, "zzz".data] = [] := by decide

/-- C7 (amended): with an unmatchable stop string present, construction
completes successfully and the remaining stop strings stay usable (a history
ending in "stop" still evaluates to true), but the condition is silently
accepted: no warning is surfaced. -/
theorem C7_amended :
    (alignOf "st".data "zzz".data = ([], []) ∧ alignOf "op".data "zzz".data = ([], [])) ∧
    mkAndEvalRow toksC [0, 1] ["stop".data, "zzz".data] [0, 1] = some true ∧
    constructionWarnings toksC [0, 1] ["stop".data, "zzz".data] = [] := by decide

/-- C8 (counterexample): on a two-row input with zero columns, `__call__`
does not return false for every row — the reduction over the empty token
dimension is an error. -/
theorem C8_counterexample :
    StopStringCriteria_call cfgA [[], []] () ≠ some [false, false] := by decide

/-- C8 (amended): for every constructed state, evaluating a row with zero
available tokens is an error (`torch.amax` refuses to reduce the empty token
dimension), not a false result. -/
theorem C8_amended (cfg : StopConfig) :
    evalRow cfg [] = none ∧ StopStringCriteria_call cfg [[]] () = none := by
  have h : evalRow cfg [] = none := by
    unfold evalRow
    rw [sliceLast_nil]
    rfl
  refine ⟨h, ?_⟩
  unfold StopStringCriteria_call
  rw [List.map_cons, List.map_nil, h]
  exact seqOpt_cons_none []

/-- C9: `__call__` is a pure function of the configuration and the token-id
history; the `scores` argument is accepted but never used, so any two scores
values (even of different types) give identical results. -/
theorem C9_scores_ignored {σ₁ σ₂ : Type} (cfg : StopConfig) (input_ids : List (List Nat))
    (s₁ : σ₁) (s₂ : σ₂) :
    StopStringCriteria_call cfg input_ids s₁ = StopStringCriteria_call cfg input_ids s₂ := rfl

/-- C10: `StoppingCriteriaList.__call__` returns, per row, exactly the
logical OR of its member criteria's results on that input (given that each
member returns one boolean per row), and the empty list returns false for
every row. -/
theorem C10_or_of_members {σ : Type} (criteria : List (List (List Nat) → σ → List Bool))
    (input_ids : List (List Nat)) (scores : σ)
    (hlen : ∀ c ∈ criteria, (c input_ids scores).length = input_ids.length) :
    StoppingCriteriaList_call criteria input_ids scores =
      (List.range input_ids.length).map
        (fun i => criteria.any (fun c => (c input_ids scores).getD i false)) ∧
    StoppingCriteriaList_call ([] : List (List (List Nat) → σ → List Bool)) input_ids scores =
      List.replicate input_ids.length false := by
  constructor
  · unfold StoppingCriteriaList_call
    have h := foldl_zipWith_or (criteria.map (fun c => c input_ids scores))
      (List.replicate input_ids.length false) input_ids.length (by simp)
      (by
        intro r hr
        rcases List.mem_map.mp hr with ⟨c, hc, rfl⟩
        exact hlen c hc)
    rw [List.foldl_map] at h
    rw [h]
    apply List.map_congr_left
    intro i hi
    have hi2 : i < input_ids.length := List.mem_range.mp hi
    have hrep : (List.replicate input_ids.length false).getD i false = false := by
      rw [List.getD_eq_getElem _ _ (by simpa using hi2)]
      simp
    rw [hrep]
    simp only [Bool.false_or]
    exact any_map_comp criteria (fun c => c input_ids scores) (fun r => r.getD i false)
  · rfl

/-- C10 (witness): a concrete two-member list over a two-row batch. -/
theorem C10_witness :
    StoppingCriteriaList_call
      [(fun (_ : List (List Nat)) (_ : Unit) => [true, false]),
       (fun (_ : List (List Nat)) (_ : Unit) => [false, false])] [[0], [1]] () =
      [true, false] := by
  have h := (C10_or_of_members
    [(fun (_ : List (List Nat)) (_ : Unit) => [true, false]),
     (fun (_ : List (List Nat)) (_ : Unit) => [false, false])] [[0], [1]] ()
    (by
      intro c hc
      rcases List.mem_cons.mp hc with rfl | hc2
      · rfl
      · rcases List.mem_cons.mp hc2 with rfl | h3
        · rfl
        · cases h3)).1
  rw [h]
  rfl

/-- C4: the per-row decision is a function of only the trailing `K` token
ids, where `K` is the character length of the longest stop string: two
batches whose rows agree on their last `K` ids yield identical results. -/
theorem C4_trailing_window (token_list : List Str) (tok_indices : List Nat)
    (stop_strings : List Str) (cfg : StopConfig) (K : Nat)
    (hb : StopStringCriteria_mk token_list tok_indices stop_strings = some cfg)
    (hK : maxNat (stop_strings.map List.length) = some K)
    {σ : Type} (scores : σ) (rows₁ rows₂ : List (List Nat))
    (hagree : List.Forall₂ (fun r₁ r₂ => sliceLast K r₁ = sliceLast K r₂) rows₁ rows₂) :
    StopStringCriteria_call cfg rows₁ scores = StopStringCriteria_call cfg rows₂ scores := by
  have hKcfg : cfg.maximum_token_len = K := by
    unfold StopStringCriteria_mk at hb
    cases hcr : _stop_string_create_embedding_vec token_list tok_indices stop_strings with
    | none =>
      rw [hcr] at hb
      exact Option.noConfusion hb
    | some v =>
      obtain ⟨vec, mvp, mvel⟩ := v
      rw [hcr, hK] at hb
      have h2 := Option.some.inj hb
      cases h2
      rfl
  have hmap : rows₁.map (evalRow cfg) = rows₂.map (evalRow cfg) := by
    induction hagree with
    | nil => rfl
    | @cons a b l₁ l₂ h htail ih =>
      have hab : evalRow cfg a = evalRow cfg b := by
        unfold evalRow
        rw [hKcfg, h]
      simp only [List.map_cons, hab, ih]
  unfold StopStringCriteria_call
  rw [hmap]

/-- C4 (witness): two rows differing only in their oldest token id. -/
theorem C4_witness :
    StopStringCriteria_call cfgA [[9, 8, 8, 0, 1]] () =
      StopStringCriteria_call cfgA [[2, 8, 8, 0, 1]] () :=
  C4_trailing_window toksA indsA stopsA cfgA 4 (by decide) (by decide) ()
    [[9, 8, 8, 0, 1]] [[2, 8, 8, 0, 1]]
    (List.Forall₂.cons (by decide) List.Forall₂.nil)

/-! Basic facts about the embedded primitives. -/

theorem cleanupF_length (t : Str) : (cleanupF t).length = t.length := by
  cases t with
  | nil => rfl
  | cons c r =>
    show (if c = '▁' ∨ c = 'Ġ' then ' ' :: r else c :: r).length = (c :: r).length
    split <;> rfl

theorem cleanupF_ne_nil (t : Str) (h : t ≠ []) : cleanupF t ≠ [] := by
  cases t with
  | nil => exact absurd rfl h
  | cons c r =>
    show (if c = '▁' ∨ c = 'Ġ' then ' ' :: r else c :: r) ≠ []
    split <;> simp

theorem cleanup_token_eq_some (t : Str) (h : t ≠ []) : cleanup_token t = some (cleanupF t) := by
  cases t with
  | nil => exact absurd rfl h
  | cons c r => rfl

theorem seqOpt_eq_some_iff {α : Type} (os : List (Option α)) (xs : List α) :
    seqOpt os = some xs ↔ os = xs.map some := by
  induction os generalizing xs with
  | nil =>
    rw [seqOpt_nil]
    cases xs <;> simp
  | cons o os ih =>
    cases o with
    | none =>
      rw [seqOpt_cons_none]
      cases xs <;> simp
    | some x =>
      rw [seqOpt_cons_some]
      cases xs with
      | nil => cases hq : seqOpt os <;> simp [hq]
      | cons y ys =>
        cases hq : seqOpt os with
        | none =>
          simp only [hq, Option.map_none', List.map_cons, List.cons.injEq, Option.some.injEq]
          constructor
          · intro hfalse
            cases hfalse
          · rintro ⟨hxy, hos⟩
            have h2 := (ih ys).mpr hos
            rw [hq] at h2
            cases h2
        | some zs =>
          simp only [hq, Option.map_some', Option.some.injEq, List.map_cons, List.cons.injEq,
            Option.some.injEq]
          constructor
          · rintro ⟨rfl, rfl⟩
            exact ⟨rfl, (ih zs).mp hq⟩
          · rintro ⟨rfl, hos⟩
            refine ⟨rfl, ?_⟩
            have h2 := (ih ys).mpr hos
            rw [hq] at h2
            exact Option.some.inj h2

theorem le_foldl_max (l : List Nat) (a : Nat) :
    a ≤ l.foldl Nat.max a ∧ ∀ x ∈ l, x ≤ l.foldl Nat.max a := by
  induction l generalizing a with
  | nil =>
    refine ⟨Nat.le_refl a, ?_⟩
    intro x hx
    cases hx
  | cons b l ih =>
    rw [List.foldl_cons]
    obtain ⟨h1, h2⟩ := ih (Nat.max a b)
    refine ⟨Nat.le_trans (Nat.le_max_left a b) h1, ?_⟩
    intro x hx
    rcases List.mem_cons.mp hx with rfl | hx2
    · exact Nat.le_trans (Nat.le_max_right a x) h1
    · exact h2 x hx2

theorem maxNat_le (l : List Nat) (v : Nat) (h : maxNat l = some v) (x : Nat) (hx : x ∈ l) :
    x ≤ v := by
  cases l with
  | nil => cases hx
  | cons a l =>
    have hv : l.foldl Nat.max a = v := Option.some.inj h
    subst hv
    rcases List.mem_cons.mp hx with rfl | hx2
    · exact (le_foldl_max l x).1
    · exact (le_foldl_max l a).2 x hx2

theorem maxNat_ne_nil (l : List Nat) (v : Nat) (h : maxNat l = some v) : l ≠ [] := by
  cases l with
  | nil => cases h
  | cons a l => simp

/-! Characterization of the alignment scan. -/

theorem intRange_mem (a b i : Int) : i ∈ intRange a b ↔ a ≤ i ∧ i < b := by
  unfold intRange
  rw [List.mem_map]
  simp only [Int.ofNat_eq_coe]
  constructor
  · rintro ⟨k, hk, rfl⟩
    rw [List.mem_range] at hk
    omega
  · rintro ⟨h1, h2⟩
    refine ⟨(i - a).toNat, ?_, ?_⟩
    · rw [List.mem_range]
      omega
    · omega

theorem foldl_pair_toList {ι : Type} (l : List ι) (f g : ι → Option Int) (a b : List Int) :
    l.foldl (fun acc i => (acc.1 ++ (f i).toList, acc.2 ++ (g i).toList)) (a, b) =
      (a ++ l.filterMap f, b ++ l.filterMap g) := by
  induction l generalizing a b with
  | nil => simp
  | cons x l ih =>
    rw [List.foldl_cons, ih]
    cases hf : f x <;> cases hg : g x <;>
      simp [List.filterMap_cons, hf, hg]

theorem tokenAlignment_eq (token rft s : Str) :
    tokenAlignment token rft s =
      ((intRange (1 - (token.length : Int)) (s.length : Int)).filterMap
          (fun i => (alignStep rft s.reverse i).1),
       (intRange (1 - (token.length : Int)) (s.length : Int)).filterMap
          (fun i => (alignStep rft s.reverse i).2)) := by
  unfold tokenAlignment
  have h := foldl_pair_toList (intRange (1 - (token.length : Int)) (s.length : Int))
    (fun i => (alignStep rft s.reverse i).1) (fun i => (alignStep rft s.reverse i).2) [] []
  simpa using h

theorem alignStep_fst_eq_some (rft rs : Str) (i v : Int) :
    (alignStep rft rs i).1 = some v ↔
      1 ≤ i ∧ v = i ∧ ((rs.drop i.toNat).take rft.length).isPrefixOf rft := by
  unfold alignStep
  dsimp only
  split_ifs with h1 h2 h3 h4 h5 h6 <;>
    simp_all <;> omega

theorem alignStep_snd_eq_some (rft rs : Str) (i v : Int) :
    (alignStep rft rs i).2 = some v ↔
      i ≤ 0 ∧ (rs.take (rft.drop (-i).toNat).length).isPrefixOf (rft.drop (-i).toNat) ∧
        v = ((min (rft.drop (-i).toNat).length
          (rs.take (rft.drop (-i).toNat).length).length : Nat) : Int) := by
  unfold alignStep
  dsimp only
  split_ifs with h1 h2 h3 h4 h5 <;>
    first
      | (simp_all <;> omega)
      | (simp_all
         intro hi hpre
         have h0 : i = 0 := by omega
         subst h0
         simp only [Int.neg_zero, Int.toNat_zero, Nat.sub_zero, List.drop_zero] at h4 hpre
         exact absurd hpre h4)

theorem prefix_slice_iff (c s : Str) (iN : Nat) (hle : iN ≤ s.length) :
    ((s.reverse.drop iN).take c.reverse.length).isPrefixOf c.reverse ↔
      (s.take (s.length - iN)).drop (s.length - iN - min c.length (s.length - iN)) =
        c.drop (c.length - min c.length (s.length - iN)) := by
  rw [List.isPrefixOf_iff_prefix, List.prefix_iff_eq_take]
  rw [List.length_reverse]
  rw [show s.reverse.drop iN = (s.take (s.length - iN)).reverse from List.drop_reverse]
  generalize hX : s.take (s.length - iN) = X
  have hXlen : X.length = s.length - iN := by
    rw [← hX, List.length_take]
    omega
  rw [show X.reverse.take c.length = (X.drop (X.length - c.length)).reverse from
    List.take_reverse]
  rw [List.length_reverse, List.length_drop]
  rw [show c.reverse.take (X.length - (X.length - c.length)) =
      (c.drop (c.length - (X.length - (X.length - c.length)))).reverse from List.take_reverse]
  rw [List.reverse_inj]
  have e1 : X.length - c.length = s.length - iN - min c.length (s.length - iN) := by omega
  rw [e1]
  have e2 : c.length - (X.length - (s.length - iN - min c.length (s.length - iN))) =
      c.length - min c.length (s.length - iN) := by omega
  rw [e2]

theorem end_slice_iff (c s : Str) (q : Nat) (hq : q ≤ c.length) :
    (s.reverse.take ((c.take q).reverse).length).isPrefixOf ((c.take q).reverse) ↔
      (c.take q).drop (q - min q s.length) = s.drop (s.length - min q s.length) := by
  rw [List.isPrefixOf_iff_prefix, List.prefix_iff_eq_take]
  rw [List.length_reverse, List.length_take]
  have e0 : min q c.length = q := by omega
  rw [e0]
  rw [show s.reverse.take q = (s.drop (s.length - q)).reverse from List.take_reverse]
  rw [List.length_reverse, List.length_drop]
  rw [show (c.take q).reverse.take (s.length - (s.length - q)) =
      ((c.take q).drop ((c.take q).length - (s.length - (s.length - q)))).reverse from
    List.take_reverse]
  rw [List.reverse_inj, List.length_take, e0]
  have e1 : q - (s.length - (s.length - q)) = q - min q s.length := by omega
  rw [e1]
  have e2 : s.length - q = s.length - min q s.length := by omega
  rw [e2, eq_comm]

theorem pos_mem_iff (token c s : Str) (hlen : token.length = c.length) (x : Int) :
    x ∈ (tokenAlignment token c.reverse s).1 ↔
      ∃ iN : Nat, x = (iN : Int) ∧ validPosSem c s iN := by
  rw [tokenAlignment_eq]
  rw [List.mem_filterMap]
  constructor
  · rintro ⟨i, hmem, hstep⟩
    rw [intRange_mem] at hmem
    rw [alignStep_fst_eq_some] at hstep
    obtain ⟨h1, hxi, hpre⟩ := hstep
    subst hxi
    refine ⟨x.toNat, by omega, ?_⟩
    have hle : x.toNat ≤ s.length := by omega
    rw [prefix_slice_iff c s x.toNat hle] at hpre
    exact ⟨by omega, by omega, hpre⟩
  · rintro ⟨iN, rfl, h1, h2, hslice⟩
    refine ⟨(iN : Int), ?_, ?_⟩
    · rw [intRange_mem]
      refine ⟨by omega, by omega⟩
    · rw [alignStep_fst_eq_some]
      refine ⟨by omega, rfl, ?_⟩
      have htn : ((iN : Int)).toNat = iN := by omega
      rw [htn]
      rw [prefix_slice_iff c s iN (by omega)]
      exact hslice

theorem end_mem_iff (token c s : Str) (hlen : token.length = c.length) (x : Int) :
    x ∈ (tokenAlignment token c.reverse s).2 ↔
      ∃ e : Nat, x = (e : Int) ∧ endOverlapSem c s e := by
  rw [tokenAlignment_eq]
  rw [List.mem_filterMap]
  constructor
  · rintro ⟨i, hmem, hstep⟩
    rw [intRange_mem] at hmem
    rw [alignStep_snd_eq_some] at hstep
    obtain ⟨hi0, hpre, hv⟩ := hstep
    obtain ⟨hm1, hm2⟩ := hmem
    have hkeq : ((-i).toNat : Int) = -i := by omega
    have hq : c.length - (-i).toNat ≤ c.length := by omega
    have hdropeq : c.reverse.drop (-i).toNat = (c.take (c.length - (-i).toNat)).reverse := by
      rw [show c.reverse.drop (-i).toNat =
        (c.take (c.length - (-i).toNat)).reverse from List.drop_reverse]
    rw [hdropeq] at hpre hv
    rw [end_slice_iff c s (c.length - (-i).toNat) hq] at hpre
    have hTlen : ((c.take (c.length - (-i).toNat)).reverse).length = c.length - (-i).toNat := by
      rw [List.length_reverse, List.length_take]
      omega
    refine ⟨min (c.length - (-i).toNat) s.length, ?_, ?_⟩
    · rw [hv, hTlen, List.length_take, List.length_reverse]
      have : min (c.length - (-i).toNat) s.length =
          min (c.length - (-i).toNat) (min (c.length - (-i).toNat) s.length) := by omega
      omega
    · exact ⟨c.length - (-i).toNat, by omega, hq, by omega, rfl, hpre⟩
  · rintro ⟨e, rfl, q, hq1, hq2, hq3, he, hslice⟩
    refine ⟨-((c.length : Int) - q), ?_, ?_⟩
    · rw [intRange_mem]
      refine ⟨by omega, by omega⟩
    · rw [alignStep_snd_eq_some]
      have hneg : (-(-((c.length : Int) - q))).toNat = c.length - q := by omega
      rw [hneg]
      have hdropeq : c.reverse.drop (c.length - q) = (c.take q).reverse := by
        rw [show c.reverse.drop (c.length - q) =
          (c.take (c.length - (c.length - q))).reverse from List.drop_reverse]
        congr 2
        omega
      rw [hdropeq]
      refine ⟨by omega, ?_, ?_⟩
      · rw [end_slice_iff c s q hq2]
        exact hslice
      · have hTlen : ((c.take q).reverse).length = q := by
          rw [List.length_reverse, List.length_take]
          omega
        rw [hTlen, List.length_take, List.length_reverse]
        omega

/-! Characterization of the table construction. -/

theorem foldOpt_nil {α β : Type} (f : β → α → Option β) (b : β) : foldOpt f b [] = some b := rfl

theorem foldOpt_cons {α β : Type} (f : β → α → Option β) (b : β) (a : α) (l : List α) :
    foldOpt f b (a :: l) =
      match f b a with
      | none => none
      | some b2 => foldOpt f b2 l := rfl

theorem setSlice_nil (row : List Int) (start : Nat) : setSlice row start [] = row := by
  unfold setSlice
  simp

theorem setSlice_length (row : List Int) (start : Nat) (vals : List Int)
    (h : start + vals.length ≤ row.length) : (setSlice row start vals).length = row.length := by
  unfold setSlice
  simp only [List.length_append, List.length_take, List.length_drop]
  omega

theorem setSlice_get_lt (row : List Int) (start : Nat) (vals : List Int) (c : Nat)
    (h : start + vals.length ≤ row.length) (hc : c < start) :
    (setSlice row start vals)[c]? = row[c]? := by
  unfold setSlice
  rw [List.getElem?_append_left
    (by simp only [List.length_append, List.length_take]; omega)]
  rw [List.getElem?_append_left
    (by simp only [List.length_take]; omega)]
  rw [List.getElem?_take_of_lt hc]

theorem setSlice_get_in (row : List Int) (start : Nat) (vals : List Int) (c : Nat)
    (h : start + vals.length ≤ row.length) (hc1 : start ≤ c) (hc2 : c < start + vals.length) :
    (setSlice row start vals)[c]? = vals[c - start]? := by
  unfold setSlice
  rw [List.getElem?_append_left
    (by simp only [List.length_append, List.length_take]; omega)]
  rw [List.getElem?_append_right
    (by simp only [List.length_take]; omega)]
  congr 1
  simp only [List.length_take]
  omega

theorem setSlice_get_ge (row : List Int) (start : Nat) (vals : List Int) (c : Nat)
    (h : start + vals.length ≤ row.length) (hc : start + vals.length ≤ c) :
    (setSlice row start vals)[c]? = row[c]? := by
  unfold setSlice
  rw [List.getElem?_append_right
    (by simp only [List.length_append, List.length_take]; omega)]
  rw [List.getElem?_drop]
  congr 1
  simp only [List.length_append, List.length_take]
  omega

theorem foldWrite_length {ε : Type} (key : ε → Nat) (upd : ε → List Int → List Int)
    (tbl : List (List Int)) (es : List ε) (tbl2 : List (List Int))
    (h : foldWrite key upd tbl es = some tbl2) : tbl2.length = tbl.length := by
  induction es generalizing tbl with
  | nil =>
    have h2 : tbl = tbl2 := Option.some.inj h
    rw [h2]
  | cons e es ih =>
    unfold foldWrite at h
    rw [foldOpt_cons] at h
    cases hr : tbl[key e]? with
    | none =>
      rw [hr] at h
      exact Option.noConfusion h
    | some row =>
      rw [hr] at h
      have h2 := ih (tbl.set (key e) (upd e row)) h
      rw [h2, List.length_set]

theorem foldWrite_keys_lt {ε : Type} (key : ε → Nat) (upd : ε → List Int → List Int)
    (tbl : List (List Int)) (es : List ε) (tbl2 : List (List Int))
    (h : foldWrite key upd tbl es = some tbl2) : ∀ e ∈ es, key e < tbl.length := by
  induction es generalizing tbl with
  | nil =>
    intro e he
    cases he
  | cons e es ih =>
    unfold foldWrite at h
    rw [foldOpt_cons] at h
    cases hr : tbl[key e]? with
    | none =>
      rw [hr] at h
      exact Option.noConfusion h
    | some row =>
      rw [hr] at h
      intro e2 he2
      rcases List.mem_cons.mp he2 with rfl | he3
      · exact (List.getElem?_eq_some.mp hr).1
      · have h3 := ih (tbl.set (key e) (upd e row)) h e2 he3
        rwa [List.length_set] at h3

theorem foldWrite_get {ε : Type} (key : ε → Nat) (upd : ε → List Int → List Int)
    (tbl : List (List Int)) (es : List ε) (tbl2 : List (List Int))
    (h : foldWrite key upd tbl es = some tbl2) (r : Nat) :
    tbl2[r]? = (tbl[r]?).map
      (fun row => (es.filter (fun e => key e == r)).foldl (fun row e => upd e row) row) := by
  induction es generalizing tbl with
  | nil =>
    have h2 : tbl = tbl2 := Option.some.inj h
    subst h2
    simp
  | cons e es ih =>
    unfold foldWrite at h
    rw [foldOpt_cons] at h
    cases hr : tbl[key e]? with
    | none =>
      rw [hr] at h
      exact Option.noConfusion h
    | some row =>
      rw [hr] at h
      have h2 := ih (tbl.set (key e) (upd e row)) h
      rw [List.filter_cons]
      by_cases hke : key e = r
      · subst hke
        rw [h2, List.getElem?_set_eq_of_lt _ (List.getElem?_eq_some.mp hr).1, hr]
        rw [if_pos (by simp)]
        rfl
      · rw [h2, List.getElem?_set_ne hke]
        rw [if_neg (by simpa using hke)]

theorem snd_mem_of_mem (ps : List (Str × Nat)) (q : Str × Nat) (r : Nat)
    (hq : q ∈ ps) (hqr : q.2 = r) : r ∈ ps.map Prod.snd := by
  rw [← hqr]
  exact List.mem_map_of_mem Prod.snd hq

theorem cleaned_eq (token_list cleaned : List Str)
    (h : token_list.map cleanup_token = cleaned.map some) :
    cleaned = token_list.map cleanupF ∧ ∀ t ∈ token_list, t ≠ [] := by
  induction token_list generalizing cleaned with
  | nil =>
    cases cleaned with
    | nil =>
      refine ⟨rfl, ?_⟩
      intro t ht
      cases ht
    | cons c cl => simp at h
  | cons t ts ih =>
    cases cleaned with
    | nil => simp at h
    | cons c cl =>
      simp only [List.map_cons, List.cons.injEq] at h
      obtain ⟨h1, h2⟩ := h
      have hne : t ≠ [] := by
        intro hnil
        subst hnil
        cases h1
      have hc : cleanupF t = c := by
        rw [cleanup_token_eq_some t hne] at h1
        exact Option.some.inj h1
      obtain ⟨ih1, ih2⟩ := ih cl h2
      constructor
      · rw [List.map_cons, hc, ← ih1]
      · intro t2 ht2
        rcases List.mem_cons.mp ht2 with rfl | h3
        · exact hne
        · exact ih2 t2 h3

theorem pairs_filter_nil (ps : List (Str × Nat)) (r : Nat) (hr : ∀ p ∈ ps, p.2 ≠ r) :
    ps.filter (fun e => e.2 == r) = [] := by
  induction ps with
  | nil => rfl
  | cons p ps ih =>
    rw [List.filter_cons, if_neg (by simpa using hr p (List.mem_cons_self p ps))]
    exact ih (fun q hq => hr q (List.mem_cons_of_mem p hq))

theorem pairs_filter_eq (ps : List (Str × Nat)) (hnd : (ps.map Prod.snd).Nodup)
    (t : Str) (r : Nat) (hmem : (t, r) ∈ ps) :
    ps.filter (fun e => e.2 == r) = [(t, r)] := by
  induction ps with
  | nil => cases hmem
  | cons p ps ih =>
    rw [List.map_cons, List.nodup_cons] at hnd
    obtain ⟨hh, htl⟩ := hnd
    rcases List.mem_cons.mp hmem with rfl | hmem2
    · rw [List.filter_cons, if_pos (by simp)]
      rw [pairs_filter_nil ps r (fun q hq hqr => hh (snd_mem_of_mem ps q r hq hqr))]
    · have hpr : p.2 ≠ r := by
        intro heq
        exact hh (heq ▸ List.mem_map_of_mem Prod.snd hmem2)
      rw [List.filter_cons, if_neg (by simpa using hpr)]
      exact ih htl hmem2

theorem step_get (tvp teo : List (List (Nat × List Int))) (pairs : List (Str × Nat))
    (mvp mvel S j : Nat) (tbl t3 : List (List Int))
    (h : ((foldWrite (fun e => e.1) (fun e row => setSlice row (mvp * j) e.2)
          tbl (tvp.getD j [])).bind (fun t1 =>
        (foldWrite (fun e => e.1)
            (fun e row => setSlice row (mvp * S + mvel * j) e.2) t1 (teo.getD j [])).bind
          (fun t2 =>
            foldWrite (fun e => e.2) (fun e row => row.set (row.length - 1) (e.1.length : Int))
              t2 pairs))) = some t3) (r : Nat) :
    t3[r]? = (tbl[r]?).map (fun row =>
      (pairs.filter (fun e => e.2 == r)).foldl
        (fun row e => row.set (row.length - 1) (e.1.length : Int))
        (((teo.getD j []).filter (fun e => e.1 == r)).foldl
          (fun row e => setSlice row (mvp * S + mvel * j) e.2)
          (((tvp.getD j []).filter (fun e => e.1 == r)).foldl
            (fun row e => setSlice row (mvp * j) e.2) row))) := by
  rw [Option.bind_eq_some] at h
  obtain ⟨t1, h1, h⟩ := h
  rw [Option.bind_eq_some] at h
  obtain ⟨t2, h2, h3⟩ := h
  rw [foldWrite_get _ _ t2 pairs t3 h3 r, foldWrite_get _ _ t1 _ t2 h2 r,
    foldWrite_get _ _ tbl _ t1 h1 r, Option.map_map, Option.map_map]
  rfl

theorem foldOpt_get_proj (f : List (List Int) → Nat → Option (List (List Int)))
    (g : Nat → Nat → List Int → List Int)
    (hproj : ∀ tbl j tbl2, f tbl j = some tbl2 → ∀ r, tbl2[r]? = (tbl[r]?).map (g j r))
    (js : List Nat) (tbl final : List (List Int)) (h : foldOpt f tbl js = some final) (r : Nat) :
    final[r]? = (tbl[r]?).map (fun row => js.foldl (fun row j => g j r row) row) := by
  induction js generalizing tbl with
  | nil =>
    have h2 : tbl = final := Option.some.inj h
    subst h2
    simp
  | cons j js ih =>
    rw [foldOpt_cons] at h
    cases hf : f tbl j with
    | none =>
      rw [hf] at h
      exact Option.noConfusion h
    | some t2 =>
      rw [hf] at h
      dsimp only at h
      rw [ih t2 h, hproj tbl j t2 hf r, Option.map_map]
      rfl

theorem foldOpt_length_proj (f : List (List Int) → Nat → Option (List (List Int)))
    (hlen : ∀ tbl j tbl2, f tbl j = some tbl2 → tbl2.length = tbl.length)
    (js : List Nat) (tbl final : List (List Int)) (h : foldOpt f tbl js = some final) :
    final.length = tbl.length := by
  induction js generalizing tbl with
  | nil =>
    have h2 : tbl = final := Option.some.inj h
    subst h2
    rfl
  | cons j js ih =>
    rw [foldOpt_cons] at h
    cases hf : f tbl j with
    | none =>
      rw [hf] at h
      exact Option.noConfusion h
    | some t2 =>
      rw [hf] at h
      dsimp only at h
      rw [ih t2 h, hlen tbl j t2 hf]

theorem step_length (tvp teo : List (List (Nat × List Int))) (pairs : List (Str × Nat))
    (mvp mvel S j : Nat) (tbl t3 : List (List Int))
    (h : ((foldWrite (fun e => e.1) (fun e row => setSlice row (mvp * j) e.2)
          tbl (tvp.getD j [])).bind (fun t1 =>
        (foldWrite (fun e => e.1)
            (fun e row => setSlice row (mvp * S + mvel * j) e.2) t1 (teo.getD j [])).bind
          (fun t2 =>
            foldWrite (fun e => e.2) (fun e row => row.set (row.length - 1) (e.1.length : Int))
              t2 pairs))) = some t3) : t3.length = tbl.length := by
  rw [Option.bind_eq_some] at h
  obtain ⟨t1, h1, h⟩ := h
  rw [Option.bind_eq_some] at h
  obtain ⟨t2, h2, h3⟩ := h
  rw [foldWrite_length _ _ t2 pairs t3 h3, foldWrite_length _ _ t1 _ t2 h2,
    foldWrite_length _ _ tbl _ t1 h1]

theorem getD_map_lt {α β : Type} (l : List α) (f : α → β) (j : Nat) (d : β)
    (hj : j < l.length) : (l.map f).getD j d = f l[j] := by
  rw [List.getD_eq_getElem _ _ (by simpa using hj)]
  simp

theorem assoc_filter_nil_gen {ε : Type} (key : ε → Nat) (F : ε → List Int)
    (ps : List ε) (r : Nat) (hr : ∀ p ∈ ps, key p ≠ r) :
    ((ps.filterMap (fun p => if (F p).isEmpty then none else some (key p, F p))).filter
      (fun e => e.1 == r)) = [] := by
  induction ps with
  | nil => rfl
  | cons p ps ih =>
    have hp := hr p (List.mem_cons_self p ps)
    have ihr := ih (fun q hq => hr q (List.mem_cons_of_mem p hq))
    by_cases hemp : (F p).isEmpty
    · simp only [List.filterMap_cons, if_pos hemp]
      exact ihr
    · simp only [List.filterMap_cons, if_neg hemp, List.filter_cons]
      rw [if_neg (by simpa using hp)]
      exact ihr

theorem assoc_filter_eq_gen {ε : Type} (key : ε → Nat) (F : ε → List Int)
    (ps : List ε) (hnd : (ps.map key).Nodup) (p0 : ε) (r : Nat)
    (hmem : p0 ∈ ps) (hkey : key p0 = r) :
    ((ps.filterMap (fun p => if (F p).isEmpty then none else some (key p, F p))).filter
      (fun e => e.1 == r)) = if (F p0).isEmpty then [] else [(r, F p0)] := by
  subst hkey
  induction ps with
  | nil => cases hmem
  | cons p ps ih =>
    rw [List.map_cons, List.nodup_cons] at hnd
    obtain ⟨hh, htl⟩ := hnd
    rcases List.mem_cons.mp hmem with rfl | hmem2
    · have htail := assoc_filter_nil_gen key F ps (key p0)
        (fun q hq hqr => hh (hqr ▸ List.mem_map_of_mem key hq))
      by_cases hemp : (F p0).isEmpty
      · simp only [List.filterMap_cons]
        rw [if_pos (by simpa using hemp)]
        rw [htail, if_pos hemp]
      · simp only [List.filterMap_cons]
        rw [if_neg (by simpa using hemp)]
        rw [List.filter_cons, if_pos (by simp)]
        rw [htail, if_neg hemp]
    · have hpr : key p ≠ key p0 := by
        intro heq
        exact hh (heq ▸ List.mem_map_of_mem key hmem2)
      by_cases hemp : (F p).isEmpty
      · simp only [List.filterMap_cons, if_pos hemp]
        exact ih htl hmem2
      · simp only [List.filterMap_cons, if_neg hemp, List.filter_cons]
        rw [if_neg (by simpa using hpr)]
        exact ih htl hmem2

theorem tableStep_length (mvp mvel S : Nat) (P E : Nat → List Int) (L : Int) (j : Nat)
    (hj : j < S) (hP : (P j).length ≤ mvp) (hE : (E j).length ≤ mvel)
    (row : List Int) (hrl : row.length = S * (mvp + mvel) + 1) :
    (tableStep mvp mvel S P E L j row).length = S * (mvp + mvel) + 1 := by
  have e1 : mvp * (j + 1) = mvp * j + mvp := by ring
  have e2 : mvel * (j + 1) = mvel * j + mvel := by ring
  have e3 : mvp * (j + 1) ≤ mvp * S := Nat.mul_le_mul_left mvp hj
  have e4 : mvel * (j + 1) ≤ mvel * S := Nat.mul_le_mul_left mvel hj
  have e5 : S * (mvp + mvel) = mvp * S + mvel * S := by ring
  have l1 : (setSlice row (mvp * j) (P j)).length = S * (mvp + mvel) + 1 := by
    rw [setSlice_length row _ _ (by omega), hrl]
  have l2 : (setSlice (setSlice row (mvp * j) (P j)) (mvp * S + mvel * j) (E j)).length
      = S * (mvp + mvel) + 1 := by
    rw [setSlice_length _ _ _ (by omega), l1]
  unfold tableStep
  rw [List.length_set, l2]

theorem tableStep_get_pos (mvp mvel S : Nat) (P E : Nat → List Int) (L : Int) (j k : Nat)
    (hj : j < S) (hk : k < mvp) (hP : (P j).length ≤ mvp) (hE : (E j).length ≤ mvel)
    (row : List Int) (hrl : row.length = S * (mvp + mvel) + 1)
    (hold : row[mvp * j + k]? = some (-1)) :
    (tableStep mvp mvel S P E L j row)[mvp * j + k]? = some ((P j).getD k (-1)) := by
  have e1 : mvp * (j + 1) = mvp * j + mvp := by ring
  have e2 : mvel * (j + 1) = mvel * j + mvel := by ring
  have e3 : mvp * (j + 1) ≤ mvp * S := Nat.mul_le_mul_left mvp hj
  have e4 : mvel * (j + 1) ≤ mvel * S := Nat.mul_le_mul_left mvel hj
  have e5 : S * (mvp + mvel) = mvp * S + mvel * S := by ring
  have l1 : (setSlice row (mvp * j) (P j)).length = S * (mvp + mvel) + 1 := by
    rw [setSlice_length row _ _ (by omega), hrl]
  have l2 : (setSlice (setSlice row (mvp * j) (P j)) (mvp * S + mvel * j) (E j)).length
      = S * (mvp + mvel) + 1 := by
    rw [setSlice_length _ _ _ (by omega), l1]
  have hwrite : (setSlice row (mvp * j) (P j))[mvp * j + k]? = some ((P j).getD k (-1)) := by
    by_cases hkP : k < (P j).length
    · rw [setSlice_get_in row (mvp * j) (P j) (mvp * j + k) (by omega) (by omega) (by omega)]
      have hsub : mvp * j + k - mvp * j = k := by omega
      rw [hsub, List.getD_eq_getElem _ _ hkP, List.getElem?_eq_getElem hkP]
    · rw [setSlice_get_ge row (mvp * j) (P j) (mvp * j + k) (by omega) (by omega)]
      rw [hold, List.getD_eq_default _ _ (by omega)]
  unfold tableStep
  rw [l2]
  simp only [Nat.add_sub_cancel]
  rw [List.getElem?_set_ne (by omega)]
  rw [setSlice_get_lt (setSlice row (mvp * j) (P j)) (mvp * S + mvel * j) (E j)
    (mvp * j + k) (by omega) (by omega)]
  exact hwrite

theorem tableStep_get_end (mvp mvel S : Nat) (P E : Nat → List Int) (L : Int) (j k : Nat)
    (hj : j < S) (hk : k < mvel) (hP : (P j).length ≤ mvp) (hE : (E j).length ≤ mvel)
    (row : List Int) (hrl : row.length = S * (mvp + mvel) + 1)
    (hold : row[mvp * S + mvel * j + k]? = some (-1)) :
    (tableStep mvp mvel S P E L j row)[mvp * S + mvel * j + k]?
      = some ((E j).getD k (-1)) := by
  have e1 : mvp * (j + 1) = mvp * j + mvp := by ring
  have e2 : mvel * (j + 1) = mvel * j + mvel := by ring
  have e3 : mvp * (j + 1) ≤ mvp * S := Nat.mul_le_mul_left mvp hj
  have e4 : mvel * (j + 1) ≤ mvel * S := Nat.mul_le_mul_left mvel hj
  have e5 : S * (mvp + mvel) = mvp * S + mvel * S := by ring
  have l1 : (setSlice row (mvp * j) (P j)).length = S * (mvp + mvel) + 1 := by
    rw [setSlice_length row _ _ (by omega), hrl]
  have l2 : (setSlice (setSlice row (mvp * j) (P j)) (mvp * S + mvel * j) (E j)).length
      = S * (mvp + mvel) + 1 := by
    rw [setSlice_length _ _ _ (by omega), l1]
  have hkeep : (setSlice row (mvp * j) (P j))[mvp * S + mvel * j + k]? = some (-1) := by
    rw [setSlice_get_ge row (mvp * j) (P j) (mvp * S + mvel * j + k) (by omega) (by omega)]
    exact hold
  have hwrite : (setSlice (setSlice row (mvp * j) (P j)) (mvp * S + mvel * j)
      (E j))[mvp * S + mvel * j + k]? = some ((E j).getD k (-1)) := by
    by_cases hkE : k < (E j).length
    · rw [setSlice_get_in _ (mvp * S + mvel * j) (E j) (mvp * S + mvel * j + k)
        (by omega) (by omega) (by omega)]
      have hsub : mvp * S + mvel * j + k - (mvp * S + mvel * j) = k := by omega
      rw [hsub, List.getD_eq_getElem _ _ hkE, List.getElem?_eq_getElem hkE]
    · rw [setSlice_get_ge _ (mvp * S + mvel * j) (E j) (mvp * S + mvel * j + k)
        (by omega) (by omega)]
      rw [hkeep, List.getD_eq_default _ _ (by omega)]
  unfold tableStep
  rw [l2]
  simp only [Nat.add_sub_cancel]
  rw [List.getElem?_set_ne (by omega)]
  exact hwrite

theorem tableStep_get_last (mvp mvel S : Nat) (P E : Nat → List Int) (L : Int) (j : Nat)
    (hj : j < S) (hP : (P j).length ≤ mvp) (hE : (E j).length ≤ mvel)
    (row : List Int) (hrl : row.length = S * (mvp + mvel) + 1) :
    (tableStep mvp mvel S P E L j row)[S * (mvp + mvel)]? = some L := by
  have e1 : mvp * (j + 1) = mvp * j + mvp := by ring
  have e2 : mvel * (j + 1) = mvel * j + mvel := by ring
  have e3 : mvp * (j + 1) ≤ mvp * S := Nat.mul_le_mul_left mvp hj
  have e4 : mvel * (j + 1) ≤ mvel * S := Nat.mul_le_mul_left mvel hj
  have e5 : S * (mvp + mvel) = mvp * S + mvel * S := by ring
  have l1 : (setSlice row (mvp * j) (P j)).length = S * (mvp + mvel) + 1 := by
    rw [setSlice_length row _ _ (by omega), hrl]
  have l2 : (setSlice (setSlice row (mvp * j) (P j)) (mvp * S + mvel * j) (E j)).length
      = S * (mvp + mvel) + 1 := by
    rw [setSlice_length _ _ _ (by omega), l1]
  unfold tableStep
  rw [l2]
  simp only [Nat.add_sub_cancel]
  rw [List.getElem?_set_eq_of_lt _ (by omega)]

theorem tableStep_get_preserve (mvp mvel S : Nat) (P E : Nat → List Int) (L : Int) (j c : Nat)
    (hj : j < S) (hP : (P j).length ≤ mvp) (hE : (E j).length ≤ mvel)
    (h1 : c < mvp * j ∨ mvp * j + (P j).length ≤ c)
    (h2 : c < mvp * S + mvel * j ∨ mvp * S + mvel * j + (E j).length ≤ c)
    (h3 : c ≠ S * (mvp + mvel))
    (row : List Int) (hrl : row.length = S * (mvp + mvel) + 1) :
    (tableStep mvp mvel S P E L j row)[c]? = row[c]? := by
  have e1 : mvp * (j + 1) = mvp * j + mvp := by ring
  have e2 : mvel * (j + 1) = mvel * j + mvel := by ring
  have e3 : mvp * (j + 1) ≤ mvp * S := Nat.mul_le_mul_left mvp hj
  have e4 : mvel * (j + 1) ≤ mvel * S := Nat.mul_le_mul_left mvel hj
  have e5 : S * (mvp + mvel) = mvp * S + mvel * S := by ring
  have l1 : (setSlice row (mvp * j) (P j)).length = S * (mvp + mvel) + 1 := by
    rw [setSlice_length row _ _ (by omega), hrl]
  have l2 : (setSlice (setSlice row (mvp * j) (P j)) (mvp * S + mvel * j) (E j)).length
      = S * (mvp + mvel) + 1 := by
    rw [setSlice_length _ _ _ (by omega), l1]
  have hfst : (setSlice row (mvp * j) (P j))[c]? = row[c]? := by
    rcases h1 with h1 | h1
    · exact setSlice_get_lt row (mvp * j) (P j) c (by omega) h1
    · exact setSlice_get_ge row (mvp * j) (P j) c (by omega) h1
  have hsnd : (setSlice (setSlice row (mvp * j) (P j)) (mvp * S + mvel * j) (E j))[c]?
      = row[c]? := by
    rcases h2 with h2 | h2
    · rw [setSlice_get_lt _ (mvp * S + mvel * j) (E j) c (by omega) h2]
      exact hfst
    · rw [setSlice_get_ge _ (mvp * S + mvel * j) (E j) c (by omega) h2]
      exact hfst
  unfold tableStep
  rw [l2]
  simp only [Nat.add_sub_cancel]
  rw [List.getElem?_set_ne (by omega)]
  exact hsnd

theorem tableFold_length (mvp mvel S : Nat) (P E : Nat → List Int) (L : Int)
    (hPb : ∀ j, (P j).length ≤ mvp) (hEb : ∀ j, (E j).length ≤ mvel)
    (js : List Nat) (hjs : ∀ j ∈ js, j < S)
    (row : List Int) (hrl : row.length = S * (mvp + mvel) + 1) :
    (js.foldl (fun row j => tableStep mvp mvel S P E L j row) row).length
      = S * (mvp + mvel) + 1 := by
  induction js generalizing row with
  | nil => exact hrl
  | cons j js ih =>
    rw [List.foldl_cons]
    exact ih (fun q hq => hjs q (List.mem_cons_of_mem j hq)) _
      (tableStep_length mvp mvel S P E L j (hjs j (List.mem_cons_self j js))
        (hPb j) (hEb j) row hrl)

theorem tableFold_preserve (mvp mvel S : Nat) (P E : Nat → List Int) (L : Int) (c : Nat)
    (hPb : ∀ j, (P j).length ≤ mvp) (hEb : ∀ j, (E j).length ≤ mvel)
    (js : List Nat) (hjs : ∀ j ∈ js, j < S)
    (hdis : ∀ j ∈ js, (c < mvp * j ∨ mvp * j + (P j).length ≤ c) ∧
      (c < mvp * S + mvel * j ∨ mvp * S + mvel * j + (E j).length ≤ c) ∧
      c ≠ S * (mvp + mvel))
    (row : List Int) (hrl : row.length = S * (mvp + mvel) + 1) :
    (js.foldl (fun row j => tableStep mvp mvel S P E L j row) row)[c]? = row[c]? := by
  induction js generalizing row with
  | nil => rfl
  | cons j js ih =>
    rw [List.foldl_cons]
    obtain ⟨d1, d2, d3⟩ := hdis j (List.mem_cons_self j js)
    have hjS := hjs j (List.mem_cons_self j js)
    rw [ih (fun q hq => hjs q (List.mem_cons_of_mem j hq))
        (fun q hq => hdis q (List.mem_cons_of_mem j hq)) _
        (tableStep_length mvp mvel S P E L j hjS (hPb j) (hEb j) row hrl)]
    exact tableStep_get_preserve mvp mvel S P E L j c hjS (hPb j) (hEb j) d1 d2 d3 row hrl

theorem tableFold_query_pos (mvp mvel S : Nat) (P E : Nat → List Int) (L : Int)
    (j0 k : Nat) (hj0 : j0 < S) (hk : k < mvp)
    (hPb : ∀ j, (P j).length ≤ mvp) (hEb : ∀ j, (E j).length ≤ mvel)
    (js : List Nat) (hjs : ∀ j ∈ js, j < S) (hnd : js.Nodup) (hj0m : j0 ∈ js)
    (row : List Int) (hrl : row.length = S * (mvp + mvel) + 1)
    (hold : row[mvp * j0 + k]? = some (-1)) :
    (js.foldl (fun row j => tableStep mvp mvel S P E L j row) row)[mvp * j0 + k]?
      = some ((P j0).getD k (-1)) := by
  induction js generalizing row with
  | nil => cases hj0m
  | cons j js ih =>
    rw [List.foldl_cons]
    rw [List.nodup_cons] at hnd
    obtain ⟨hjn, hndt⟩ := hnd
    have hjS := hjs j (List.mem_cons_self j js)
    have hlen2 := tableStep_length mvp mvel S P E L j hjS (hPb j) (hEb j) row hrl
    rcases List.mem_cons.mp hj0m with rfl | hj0m2
    · have hdis : ∀ q ∈ js,
          (mvp * j0 + k < mvp * q ∨ mvp * q + (P q).length ≤ mvp * j0 + k) ∧
          (mvp * j0 + k < mvp * S + mvel * q ∨
            mvp * S + mvel * q + (E q).length ≤ mvp * j0 + k) ∧
          mvp * j0 + k ≠ S * (mvp + mvel) := by
        intro q hq
        have hqS := hjs q (List.mem_cons_of_mem j0 hq)
        have hqne : q ≠ j0 := fun h => hjn (by rw [← h]; exact hq)
        have e1 : mvp * (j0 + 1) = mvp * j0 + mvp := by ring
        have e2 : mvp * (q + 1) = mvp * q + mvp := by ring
        have e3 : mvp * (j0 + 1) ≤ mvp * S := Nat.mul_le_mul_left mvp hj0
        have e5 : S * (mvp + mvel) = mvp * S + mvel * S := by ring
        have hPq := hPb q
        have hor : mvp * (q + 1) ≤ mvp * j0 ∨ mvp * (j0 + 1) ≤ mvp * q := by
          rcases Nat.lt_or_ge q j0 with h | h
          · exact Or.inl (Nat.mul_le_mul_left mvp h)
          · exact Or.inr (Nat.mul_le_mul_left mvp (by omega))
        refine ⟨by omega, by omega, by omega⟩
      rw [tableFold_preserve mvp mvel S P E L (mvp * j0 + k) hPb hEb js
          (fun q hq => hjs q (List.mem_cons_of_mem j0 hq)) hdis _ hlen2]
      exact tableStep_get_pos mvp mvel S P E L j0 k hjS hk (hPb j0) (hEb j0) row hrl hold
    · have hqne : j ≠ j0 := fun h => hjn (by rw [h]; exact hj0m2)
      have hpre : (tableStep mvp mvel S P E L j row)[mvp * j0 + k]?
          = row[mvp * j0 + k]? := by
        have e1 : mvp * (j0 + 1) = mvp * j0 + mvp := by ring
        have e2 : mvp * (j + 1) = mvp * j + mvp := by ring
        have e3 : mvp * (j0 + 1) ≤ mvp * S := Nat.mul_le_mul_left mvp hj0
        have e5 : S * (mvp + mvel) = mvp * S + mvel * S := by ring
        have hPq := hPb j
        have hor : mvp * (j + 1) ≤ mvp * j0 ∨ mvp * (j0 + 1) ≤ mvp * j := by
          rcases Nat.lt_or_ge j j0 with h | h
          · exact Or.inl (Nat.mul_le_mul_left mvp h)
          · exact Or.inr (Nat.mul_le_mul_left mvp (by omega))
        exact tableStep_get_preserve mvp mvel S P E L j (mvp * j0 + k) hjS
          (hPb j) (hEb j) (by omega) (by omega) (by omega) row hrl
      exact ih (fun q hq => hjs q (List.mem_cons_of_mem j hq)) hndt hj0m2 _ hlen2
        (by rw [hpre]; exact hold)

theorem tableFold_query_end (mvp mvel S : Nat) (P E : Nat → List Int) (L : Int)
    (j0 k : Nat) (hj0 : j0 < S) (hk : k < mvel)
    (hPb : ∀ j, (P j).length ≤ mvp) (hEb : ∀ j, (E j).length ≤ mvel)
    (js : List Nat) (hjs : ∀ j ∈ js, j < S) (hnd : js.Nodup) (hj0m : j0 ∈ js)
    (row : List Int) (hrl : row.length = S * (mvp + mvel) + 1)
    (hold : row[mvp * S + mvel * j0 + k]? = some (-1)) :
    (js.foldl (fun row j => tableStep mvp mvel S P E L j row)
      row)[mvp * S + mvel * j0 + k]? = some ((E j0).getD k (-1)) := by
  induction js generalizing row with
  | nil => cases hj0m
  | cons j js ih =>
    rw [List.foldl_cons]
    rw [List.nodup_cons] at hnd
    obtain ⟨hjn, hndt⟩ := hnd
    have hjS := hjs j (List.mem_cons_self j js)
    have hlen2 := tableStep_length mvp mvel S P E L j hjS (hPb j) (hEb j) row hrl
    rcases List.mem_cons.mp hj0m with rfl | hj0m2
    · have hdis : ∀ q ∈ js,
          (mvp * S + mvel * j0 + k < mvp * q ∨
            mvp * q + (P q).length ≤ mvp * S + mvel * j0 + k) ∧
          (mvp * S + mvel * j0 + k < mvp * S + mvel * q ∨
            mvp * S + mvel * q + (E q).length ≤ mvp * S + mvel * j0 + k) ∧
          mvp * S + mvel * j0 + k ≠ S * (mvp + mvel) := by
        intro q hq
        have hqS := hjs q (List.mem_cons_of_mem j0 hq)
        have hqne : q ≠ j0 := fun h => hjn (by rw [← h]; exact hq)
        have e1 : mvel * (j0 + 1) = mvel * j0 + mvel := by ring
        have e2 : mvel * (q + 1) = mvel * q + mvel := by ring
        have e3 : mvel * (j0 + 1) ≤ mvel * S := Nat.mul_le_mul_left mvel hj0
        have e4 : mvp * (q + 1) = mvp * q + mvp := by ring
        have e6 : mvp * (q + 1) ≤ mvp * S := Nat.mul_le_mul_left mvp hqS
        have e5 : S * (mvp + mvel) = mvp * S + mvel * S := by ring
        have hPq := hPb q
        have hEq := hEb q
        have hor : mvel * (q + 1) ≤ mvel * j0 ∨ mvel * (j0 + 1) ≤ mvel * q := by
          rcases Nat.lt_or_ge q j0 with h | h
          · exact Or.inl (Nat.mul_le_mul_left mvel h)
          · exact Or.inr (Nat.mul_le_mul_left mvel (by omega))
        refine ⟨by omega, by omega, by omega⟩
      rw [tableFold_preserve mvp mvel S P E L (mvp * S + mvel * j0 + k) hPb hEb js
          (fun q hq => hjs q (List.mem_cons_of_mem j0 hq)) hdis _ hlen2]
      exact tableStep_get_end mvp mvel S P E L j0 k hjS hk (hPb j0) (hEb j0) row hrl hold
    · have hqne : j ≠ j0 := fun h => hjn (by rw [h]; exact hj0m2)
      have hpre : (tableStep mvp mvel S P E L j row)[mvp * S + mvel * j0 + k]?
          = row[mvp * S + mvel * j0 + k]? := by
        have e1 : mvel * (j0 + 1) = mvel * j0 + mvel := by ring
        have e2 : mvel * (j + 1) = mvel * j + mvel := by ring
        have e3 : mvel * (j0 + 1) ≤ mvel * S := Nat.mul_le_mul_left mvel hj0
        have e4 : mvp * (j + 1) = mvp * j + mvp := by ring
        have e6 : mvp * (j + 1) ≤ mvp * S := Nat.mul_le_mul_left mvp hjS
        have e5 : S * (mvp + mvel) = mvp * S + mvel * S := by ring
        have hPq := hPb j
        have hEq := hEb j
        have hor : mvel * (j + 1) ≤ mvel * j0 ∨ mvel * (j0 + 1) ≤ mvel * j := by
          rcases Nat.lt_or_ge j j0 with h | h
          · exact Or.inl (Nat.mul_le_mul_left mvel h)
          · exact Or.inr (Nat.mul_le_mul_left mvel (by omega))
        exact tableStep_get_preserve mvp mvel S P E L j (mvp * S + mvel * j0 + k) hjS
          (hPb j) (hEb j) (by omega) (by omega) (by omega) row hrl
      exact ih (fun q hq => hjs q (List.mem_cons_of_mem j hq)) hndt hj0m2 _ hlen2
        (by rw [hpre]; exact hold)

theorem tableFold_query_last (mvp mvel S : Nat) (P E : Nat → List Int) (L : Int)
    (hPb : ∀ j, (P j).length ≤ mvp) (hEb : ∀ j, (E j).length ≤ mvel)
    (js : List Nat) (hjs : ∀ j ∈ js, j < S) (hne : js ≠ [])
    (row : List Int) (hrl : row.length = S * (mvp + mvel) + 1) :
    (js.foldl (fun row j => tableStep mvp mvel S P E L j row) row)[S * (mvp + mvel)]?
      = some L := by
  induction js generalizing row with
  | nil => cases hne rfl
  | cons j js ih =>
    rw [List.foldl_cons]
    have hjS := hjs j (List.mem_cons_self j js)
    have hlen2 := tableStep_length mvp mvel S P E L j hjS (hPb j) (hEb j) row hrl
    cases js with
    | nil =>
      rw [List.foldl_nil]
      exact tableStep_get_last mvp mvel S P E L j hjS (hPb j) (hEb j) row hrl
    | cons j2 js2 =>
      exact ih (fun q hq => hjs q (List.mem_cons_of_mem j hq))
        (List.cons_ne_nil j2 js2) _ hlen2

theorem foldOpt_mem_step {α β : Type} (f : β → α → Option β) (I : β → Prop)
    (hpres : ∀ b1 a b2, I b1 → f b1 a = some b2 → I b2)
    (l : List α) (b final : β) (h : foldOpt f b l = some final) (hI : I b)
    (a : α) (ha : a ∈ l) : ∃ b1 b2, I b1 ∧ f b1 a = some b2 := by
  induction l generalizing b with
  | nil => cases ha
  | cons x xs ih =>
    rw [foldOpt_cons] at h
    cases hf : f b x with
    | none =>
      rw [hf] at h
      exact Option.noConfusion h
    | some b2 =>
      rw [hf] at h
      rcases List.mem_cons.mp ha with rfl | ha2
      · exact ⟨b, b2, hI, hf⟩
      · exact ih b2 h (hpres b x b2 hI hf) ha2

theorem foldl_write_block (row : List Int) (start : Nat) (v : List Int) (r : Nat) :
    ((if v.isEmpty then [] else [(r, v)]).foldl
      (fun row (e : Nat × List Int) => setSlice row start e.2) row) = setSlice row start v := by
  cases v with
  | nil =>
    rw [setSlice_nil]
    rfl
  | cons a l => rfl

theorem create_inv (token_list : List Str) (tok_indices : List Nat)
    (stop_strings : List Str) (vec : List (List Int)) (mvp mvel : Nat)
    (hc : _stop_string_create_embedding_vec token_list tok_indices stop_strings
        = some (vec, mvp, mvel)) :
    ∃ tvp teo : List (List (Nat × List Int)),
      _stop_string_get_matching_positions token_list tok_indices stop_strings
        = some (tvp, teo) ∧
      maxNat ((tvp.map (fun d => d.map (fun e => e.2.length))).flatten) = some mvp ∧
      maxNat ((teo.map (fun d => d.map (fun e => e.2.length))).flatten) = some mvel ∧
      foldOpt (fun tbl i =>
          (foldWrite (fun e => e.1) (fun e row => setSlice row (mvp * i) e.2)
              tbl (tvp.getD i [])).bind (fun t1 =>
            (foldWrite (fun e => e.1)
                (fun e row => setSlice row (mvp * stop_strings.length + mvel * i) e.2) t1
                (teo.getD i [])).bind (fun t2 =>
              foldWrite (fun e => e.2)
                (fun e row => row.set (row.length - 1) (e.1.length : Int))
                t2 (token_list.zip tok_indices))))
        (List.replicate token_list.length
          (List.replicate (stop_strings.length * (mvp + mvel) + 1) (-1)))
        (List.range stop_strings.length) = some vec := by
  unfold _stop_string_create_embedding_vec at hc
  simp only [Option.bind_eq_some, Option.map_eq_some'] at hc
  obtain ⟨gmp, hg, m1, hm1, m2, hm2, tbl, hfold, heq⟩ := hc
  injection heq with h1 h23
  injection h23 with h2 h3
  subst h1
  subst h2
  subst h3
  exact ⟨gmp.1, gmp.2, by rw [hg], hm1, hm2, hfold⟩

theorem getD_map_lt2 {α β : Type} (l : List α) (f : α → β) (j : Nat) (d : β) (d2 : α)
    (hj : j < l.length) : (l.map f).getD j d = f (l.getD j d2) := by
  rw [getD_map_lt l f j d hj, List.getD_eq_getElem l d2 hj]

theorem table_row_spec (token_list : List Str) (tok_indices : List Nat)
    (stop_strings : List Str) (vec : List (List Int)) (mvp mvel : Nat)
    (hc : _stop_string_create_embedding_vec token_list tok_indices stop_strings
        = some (vec, mvp, mvel))
    (hndi : tok_indices.Nodup) (hlen : token_list.length = tok_indices.length)
    (i : Nat) (t : Str) (r : Nat)
    (hir : (token_list.zip tok_indices)[i]? = some (t, r)) :
    ∃ row : List Int, vec[r]? = some row ∧
      row.length = stop_strings.length * (mvp + mvel) + 1 ∧
      (∀ j k, j < stop_strings.length → k < mvp →
        row[mvp * j + k]? = some (((alignOf t (stop_strings.getD j [])).1).getD k (-1))) ∧
      (∀ j k, j < stop_strings.length → k < mvel →
        row[mvp * stop_strings.length + mvel * j + k]?
          = some (((alignOf t (stop_strings.getD j [])).2).getD k (-1))) ∧
      row[stop_strings.length * (mvp + mvel)]? = some (t.length : Int) ∧
      (∀ j, j < stop_strings.length →
        ((alignOf t (stop_strings.getD j [])).1).length ≤ mvp ∧
        ((alignOf t (stop_strings.getD j [])).2).length ≤ mvel) := by
  obtain ⟨tvp, teo, hg, hm1, hm2, hfold⟩ :=
    create_inv token_list tok_indices stop_strings vec mvp mvel hc
  unfold _stop_string_get_matching_positions at hg
  rw [Option.map_eq_some'] at hg
  obtain ⟨cleaned, hseq, hpair⟩ := hg
  rw [seqOpt_eq_some_iff] at hseq
  obtain ⟨hcl, hnn⟩ := cleaned_eq token_list cleaned hseq
  subst hcl
  dsimp only at hpair
  injection hpair with htvp hteo
  have hmemp : (t, r) ∈ token_list.zip tok_indices := List.getElem?_mem hir
  rw [List.getElem?_zip_eq_some] at hir
  have hti2 : token_list[i]? = some t := hir.1
  have hri2 : tok_indices[i]? = some r := hir.2
  have hS1 : 0 < stop_strings.length := by
    rcases stop_strings with _ | ⟨s, ss⟩
    · exfalso
      rw [← htvp] at hm1
      simp [maxNat] at hm1
    · simp
  have hrN : r < token_list.length := by
    have hex := foldOpt_mem_step _ (fun tbl => tbl.length = token_list.length)
      (fun b1 a b2 hI hf => by
        show b2.length = token_list.length
        rw [step_length tvp teo (token_list.zip tok_indices) mvp mvel
          stop_strings.length a b1 b2 hf]
        exact hI)
      (List.range stop_strings.length) _ vec hfold (by simp) 0 (List.mem_range.mpr hS1)
    obtain ⟨tbl1, t3, hlen1, hst⟩ := hex
    simp only [Option.bind_eq_some] at hst
    obtain ⟨t1, hw1, t2, hw2, hw3⟩ := hst
    have hl1 := foldWrite_length _ _ tbl1 _ t1 hw1
    have hl2 := foldWrite_length _ _ t1 _ t2 hw2
    have hklt2 : r < t2.length :=
      foldWrite_keys_lt _ _ t2 (token_list.zip tok_indices) t3 hw3 (t, r) hmemp
    omega
  set tks := (token_list.zip ((token_list.map cleanupF).map List.reverse)).zip tok_indices
    with htksdef
  have hlenz : (token_list.zip ((token_list.map cleanupF).map List.reverse)).length
      = token_list.length := by simp
  have hmap_snd : tks.map Prod.snd = tok_indices := by
    rw [htksdef]
    exact List.map_snd_zip _ _ (by rw [hlenz]; omega)
  have hndtoks : (tks.map Prod.snd).Nodup := by
    rw [hmap_snd]
    exact hndi
  have hrft : ((token_list.map cleanupF).map List.reverse)[i]?
      = some ((cleanupF t).reverse) := by
    rw [List.getElem?_map, List.getElem?_map, hti2]
    rfl
  have hp0 : tks[i]? = some ((t, (cleanupF t).reverse), r) := by
    rw [htksdef, List.getElem?_zip_eq_some]
    constructor
    · rw [List.getElem?_zip_eq_some]
      exact ⟨hti2, hrft⟩
    · exact hri2
  have hp0mem : ((t, (cleanupF t).reverse), r) ∈ tks := List.getElem?_mem hp0
  have hnd_pairs : ((token_list.zip tok_indices).map Prod.snd).Nodup := by
    rw [List.map_snd_zip _ _ (by omega)]
    exact hndi
  have halignP : ∀ j, j < stop_strings.length →
      ((alignOf t (stop_strings.getD j [])).1).length ≤ mvp := by
    intro j hjS
    have hsj := List.getD_eq_getElem stop_strings [] hjS
    cases hA : (alignOf t (stop_strings.getD j [])).1 with
    | nil => exact Nat.zero_le mvp
    | cons a l =>
      have hA2 : (tokenAlignment t (cleanupF t).reverse stop_strings[j]).1 = a :: l := by
        rw [← hsj]
        exact hA
      have hmem1 : ((r : Nat), a :: l) ∈ tvp.getD j [] := by
        rw [← htvp, getD_map_lt stop_strings _ j [] hjS]
        rw [List.mem_filterMap]
        refine ⟨((t, (cleanupF t).reverse), r), hp0mem, ?_⟩
        show (if ((tokenAlignment t (cleanupF t).reverse stop_strings[j]).1).isEmpty
            then none
            else some (r, (tokenAlignment t (cleanupF t).reverse stop_strings[j]).1))
          = some (r, a :: l)
        rw [hA2]
        rfl
      have htvplen : tvp.length = stop_strings.length := by
        rw [← htvp, List.length_map]
      have hmemd : tvp.getD j [] ∈ tvp := by
        rw [List.getD_eq_getElem tvp [] (by omega)]
        exact List.getElem_mem (by omega)
      have hmem2 : (a :: l).length ∈ (tvp.getD j []).map (fun e => e.2.length) :=
        List.mem_map_of_mem (fun e => e.2.length) hmem1
      have hmem3 : (tvp.getD j []).map (fun e => e.2.length)
          ∈ tvp.map (fun d => d.map (fun e => e.2.length)) :=
        List.mem_map_of_mem _ hmemd
      exact maxNat_le _ mvp hm1 _ (List.mem_flatten_of_mem hmem3 hmem2)
  have halignE : ∀ j, j < stop_strings.length →
      ((alignOf t (stop_strings.getD j [])).2).length ≤ mvel := by
    intro j hjS
    have hsj := List.getD_eq_getElem stop_strings [] hjS
    cases hA : (alignOf t (stop_strings.getD j [])).2 with
    | nil => exact Nat.zero_le mvel
    | cons a l =>
      have hA2 : (tokenAlignment t (cleanupF t).reverse stop_strings[j]).2 = a :: l := by
        rw [← hsj]
        exact hA
      have hmem1 : ((r : Nat), a :: l) ∈ teo.getD j [] := by
        rw [← hteo, getD_map_lt stop_strings _ j [] hjS]
        rw [List.mem_filterMap]
        refine ⟨((t, (cleanupF t).reverse), r), hp0mem, ?_⟩
        show (if ((tokenAlignment t (cleanupF t).reverse stop_strings[j]).2).isEmpty
            then none
            else some (r, (tokenAlignment t (cleanupF t).reverse stop_strings[j]).2))
          = some (r, a :: l)
        rw [hA2]
        rfl
      have hteolen : teo.length = stop_strings.length := by
        rw [← hteo, List.length_map]
      have hmemd : teo.getD j [] ∈ teo := by
        rw [List.getD_eq_getElem teo [] (by omega)]
        exact List.getElem_mem (by omega)
      have hmem2 : (a :: l).length ∈ (teo.getD j []).map (fun e => e.2.length) :=
        List.mem_map_of_mem (fun e => e.2.length) hmem1
      have hmem3 : (teo.getD j []).map (fun e => e.2.length)
          ∈ teo.map (fun d => d.map (fun e => e.2.length)) :=
        List.mem_map_of_mem _ hmemd
      exact maxNat_le _ mvel hm2 _ (List.mem_flatten_of_mem hmem3 hmem2)
  have hPb : ∀ j, (if j < stop_strings.length
      then (alignOf t (stop_strings.getD j [])).1 else []).length ≤ mvp := by
    intro j
    by_cases hj : j < stop_strings.length
    · rw [if_pos hj]
      exact halignP j hj
    · rw [if_neg hj]
      exact Nat.zero_le mvp
  have hEb : ∀ j, (if j < stop_strings.length
      then (alignOf t (stop_strings.getD j [])).2 else []).length ≤ mvel := by
    intro j
    by_cases hj : j < stop_strings.length
    · rw [if_pos hj]
      exact halignE j hj
    · rw [if_neg hj]
      exact Nat.zero_le mvel
  have hb1 : ∀ j k, j < stop_strings.length → k < mvp →
      mvp * j + k < stop_strings.length * (mvp + mvel) + 1 := by
    intro j k hj hk
    have e1 : mvp * (j + 1) = mvp * j + mvp := by ring
    have e3 : mvp * (j + 1) ≤ mvp * stop_strings.length := Nat.mul_le_mul_left mvp hj
    have e5 : stop_strings.length * (mvp + mvel)
        = mvp * stop_strings.length + mvel * stop_strings.length := by ring
    omega
  have hb2 : ∀ j k, j < stop_strings.length → k < mvel →
      mvp * stop_strings.length + mvel * j + k
        < stop_strings.length * (mvp + mvel) + 1 := by
    intro j k hj hk
    have e1 : mvel * (j + 1) = mvel * j + mvel := by ring
    have e3 : mvel * (j + 1) ≤ mvel * stop_strings.length := Nat.mul_le_mul_left mvel hj
    have e5 : stop_strings.length * (mvp + mvel)
        = mvp * stop_strings.length + mvel * stop_strings.length := by ring
    omega
  have hget := foldOpt_get_proj _
    (fun j rr row =>
      ((token_list.zip tok_indices).filter (fun e => e.2 == rr)).foldl
        (fun row e => row.set (row.length - 1) (e.1.length : Int))
        (((teo.getD j []).filter (fun e => e.1 == rr)).foldl
          (fun row e => setSlice row (mvp * stop_strings.length + mvel * j) e.2)
          (((tvp.getD j []).filter (fun e => e.1 == rr)).foldl
            (fun row e => setSlice row (mvp * j) e.2) row)))
    (fun tbl j tbl2 hh rr => step_get tvp teo (token_list.zip tok_indices) mvp mvel
      stop_strings.length j tbl tbl2 hh rr)
    (List.range stop_strings.length) _ vec hfold r
  rw [List.getElem?_replicate_of_lt hrN, Option.map_some'] at hget
  have hbody : ∀ (row : List Int), ∀ j ∈ List.range stop_strings.length,
      ((token_list.zip tok_indices).filter (fun e => e.2 == r)).foldl
        (fun row e => row.set (row.length - 1) (e.1.length : Int))
        (((teo.getD j []).filter (fun e => e.1 == r)).foldl
          (fun row e => setSlice row (mvp * stop_strings.length + mvel * j) e.2)
          (((tvp.getD j []).filter (fun e => e.1 == r)).foldl
            (fun row e => setSlice row (mvp * j) e.2) row))
      = tableStep mvp mvel stop_strings.length
          (fun j2 => if j2 < stop_strings.length
            then (alignOf t (stop_strings.getD j2 [])).1 else [])
          (fun j2 => if j2 < stop_strings.length
            then (alignOf t (stop_strings.getD j2 [])).2 else [])
          (t.length : Int) j row := by
    intro row j hjmem
    have hjS : j < stop_strings.length := List.mem_range.mp hjmem
    have hraw1 := assoc_filter_eq_gen Prod.snd
      (fun e => (tokenAlignment e.1.1 e.1.2 (stop_strings.getD j [])).1) tks hndtoks
      ((t, (cleanupF t).reverse), r) r hp0mem rfl
    have htv1 : tvp.getD j []
        = tks.filterMap (fun e =>
            if ((tokenAlignment e.1.1 e.1.2 (stop_strings.getD j [])).1).isEmpty then none
            else some (e.2, (tokenAlignment e.1.1 e.1.2 (stop_strings.getD j [])).1)) := by
      rw [← htvp]
      exact getD_map_lt2 stop_strings _ j [] [] hjS
    have hf1 : (tvp.getD j []).filter (fun e => e.1 == r)
        = if ((alignOf t (stop_strings.getD j [])).1).isEmpty then []
          else [(r, (alignOf t (stop_strings.getD j [])).1)] := by
      rw [htv1]
      exact hraw1
    have hraw2 := assoc_filter_eq_gen Prod.snd
      (fun e => (tokenAlignment e.1.1 e.1.2 (stop_strings.getD j [])).2) tks hndtoks
      ((t, (cleanupF t).reverse), r) r hp0mem rfl
    have hte1 : teo.getD j []
        = tks.filterMap (fun e =>
            if ((tokenAlignment e.1.1 e.1.2 (stop_strings.getD j [])).2).isEmpty then none
            else some (e.2, (tokenAlignment e.1.1 e.1.2 (stop_strings.getD j [])).2)) := by
      rw [← hteo]
      exact getD_map_lt2 stop_strings _ j [] [] hjS
    have hf2 : (teo.getD j []).filter (fun e => e.1 == r)
        = if ((alignOf t (stop_strings.getD j [])).2).isEmpty then []
          else [(r, (alignOf t (stop_strings.getD j [])).2)] := by
      rw [hte1]
      exact hraw2
    have hf3 : (token_list.zip tok_indices).filter (fun e => e.2 == r) = [(t, r)] :=
      pairs_filter_eq (token_list.zip tok_indices) hnd_pairs t r hmemp
    rw [hf1, foldl_write_block, hf2, foldl_write_block, hf3]
    unfold tableStep
    dsimp only
    rw [if_pos hjS, if_pos hjS]
    rfl
  refine ⟨(List.range stop_strings.length).foldl
      (fun row j => tableStep mvp mvel stop_strings.length
        (fun j2 => if j2 < stop_strings.length
          then (alignOf t (stop_strings.getD j2 [])).1 else [])
        (fun j2 => if j2 < stop_strings.length
          then (alignOf t (stop_strings.getD j2 [])).2 else [])
        (t.length : Int) j row)
      (List.replicate (stop_strings.length * (mvp + mvel) + 1) (-1)),
      ?_, ?_, ?_, ?_, ?_, ?_⟩
  · rw [hget]
    exact congrArg some (List.foldl_ext _ _ _ hbody)
  · exact tableFold_length mvp mvel stop_strings.length _ _ (t.length : Int) hPb hEb
      (List.range stop_strings.length) (fun q hq => List.mem_range.mp hq) _ (by simp)
  · intro j k hj hk
    rw [tableFold_query_pos mvp mvel stop_strings.length _ _ (t.length : Int) j k hj hk
      hPb hEb (List.range stop_strings.length) (fun q hq => List.mem_range.mp hq)
      (List.nodup_range stop_strings.length) (List.mem_range.mpr hj) _ (by simp)
      (List.getElem?_replicate_of_lt (hb1 j k hj hk)), if_pos hj]
  · intro j k hj hk
    rw [tableFold_query_end mvp mvel stop_strings.length _ _ (t.length : Int) j k hj hk
      hPb hEb (List.range stop_strings.length) (fun q hq => List.mem_range.mp hq)
      (List.nodup_range stop_strings.length) (List.mem_range.mpr hj) _ (by simp)
      (List.getElem?_replicate_of_lt (hb2 j k hj hk)), if_pos hj]
  · exact tableFold_query_last mvp mvel stop_strings.length _ _ (t.length : Int)
      hPb hEb (List.range stop_strings.length) (fun q hq => List.mem_range.mp hq)
      (by
        intro hemp
        rw [List.range_eq_nil] at hemp
        omega) _ (by simp)
  · intro j hj
    exact ⟨halignP j hj, halignE j hj⟩

theorem foldl_max_mem_int (l : List Int) (a : Int) : l.foldl max a ∈ a :: l := by
  induction l generalizing a with
  | nil => simp
  | cons b l ih =>
    rw [List.foldl_cons]
    rcases List.mem_cons.mp (ih (max a b)) with h | h
    · rcases max_choice a b with h2 | h2 <;> rw [h, h2] <;> simp
    · simp [h]

theorem foldl_max_le_int (l : List Int) (a : Int) :
    a ≤ l.foldl max a ∧ ∀ x ∈ l, x ≤ l.foldl max a := by
  induction l generalizing a with
  | nil =>
    refine ⟨le_refl a, ?_⟩
    intro x hx
    cases hx
  | cons b l ih =>
    obtain ⟨h1, h2⟩ := ih (max a b)
    rw [List.foldl_cons]
    refine ⟨le_trans (le_max_left a b) h1, ?_⟩
    intro x hx
    rcases List.mem_cons.mp hx with rfl | hx2
    · exact le_trans (le_max_right a x) h1
    · exact h2 x hx2

theorem amaxInt_spec (l : List Int) (v : Int) (h : amaxInt l = some v) :
    v ∈ l ∧ ∀ x ∈ l, x ≤ v := by
  cases l with
  | nil => exact Option.noConfusion h
  | cons a l =>
    have hv : l.foldl max a = v := Option.some.inj h
    constructor
    · rw [← hv]
      exact foldl_max_mem_int l a
    · intro x hx
      rcases List.mem_cons.mp hx with rfl | hx2
      · rw [← hv]
        exact (foldl_max_le_int l x).1
      · rw [← hv]
        exact (foldl_max_le_int l a).2 x hx2

theorem amaxInt_ne_nil (l : List Int) (h : l ≠ []) : ∃ v, amaxInt l = some v := by
  cases l with
  | nil => cases h rfl
  | cons a l => exact ⟨l.foldl max a, rfl⟩

theorem amax_ge_iff (l : List Int) (v target : Int) (h : amaxInt l = some v) :
    target ≤ v ↔ ∃ x ∈ l, target ≤ x := by
  obtain ⟨hmem, hub⟩ := amaxInt_spec l v h
  constructor
  · intro hle
    exact ⟨v, hmem, hle⟩
  · rintro ⟨x, hx, hle⟩
    exact le_trans hle (hub x hx)

theorem mem_scan_iff (cfg : StopConfig) (emb : List (List Int)) (j : Nat) (x : Int) :
    x ∈ (((List.range emb.length).map (fun t =>
        (List.range cfg.max_valid_end_lens).map (fun k => maskedCumAt cfg emb j k t))).flatten)
      ↔ ∃ t, t < emb.length ∧ ∃ k, k < cfg.max_valid_end_lens
          ∧ x = maskedCumAt cfg emb j k t := by
  rw [List.mem_flatten]
  constructor
  · rintro ⟨lm, hlm, hx⟩
    rcases List.mem_map.mp hlm with ⟨t, ht, rfl⟩
    rcases List.mem_map.mp hx with ⟨k, hk, rfl⟩
    exact ⟨t, List.mem_range.mp ht, k, List.mem_range.mp hk, rfl⟩
  · rintro ⟨t, ht, k, hk, rfl⟩
    refine ⟨(List.range cfg.max_valid_end_lens).map
      (fun k => maskedCumAt cfg emb j k t), ?_, ?_⟩
    · exact List.mem_map_of_mem _ (List.mem_range.mpr ht)
    · exact List.mem_map_of_mem _ (List.mem_range.mpr hk)

theorem maskAt_true_iff (cfg : StopConfig) (emb : List (List Int)) (j k t : Nat) :
    maskAt cfg emb j k t = true ↔ ∀ u, u ≤ t → matchAt cfg emb j k u = true := by
  induction t with
  | zero =>
    constructor
    · intro h u hu
      rw [Nat.le_zero.mp hu]
      exact h
    · intro h
      exact h 0 (Nat.le_refl 0)
  | succ t ih =>
    show (maskAt cfg emb j k t && matchAt cfg emb j k (t + 1)) = true ↔ _
    rw [Bool.and_eq_true, ih]
    constructor
    · rintro ⟨h1, h2⟩ u hu
      rcases Nat.lt_or_ge u (t + 1) with h | h
      · exact h1 u (by omega)
      · have : u = t + 1 := by omega
        rw [this]
        exact h2
    · intro h
      exact ⟨fun u hu => h u (by omega), h (t + 1) (Nat.le_refl _)⟩

theorem cumLen_ge (cs : List Str) (e : Nat) : ∀ n, e ≤ cumLen cs e n := by
  intro n
  induction n with
  | zero => exact Nat.le_refl e
  | succ n ih =>
    show e ≤ cumLen cs e n + (cs.getD (n + 1) []).length
    omega

theorem cum_formula (cfg : StopConfig) (emb : List (List Int)) (cs : List Str)
    (j k : Nat) (e : Nat)
    (he : endLenSlot cfg (emb.getD 0 []) j k = (e : Int))
    (hlen : ∀ u, 1 ≤ u → u < emb.length →
      tokenLenOf (emb.getD u []) = ((cs.getD u []).length : Int)) :
    ∀ t, t < emb.length → cumAt cfg emb j k t = (cumLen cs e t : Int) := by
  intro t
  induction t with
  | zero =>
    intro ht
    show lenAt cfg emb j k 0 = _
    unfold lenAt
    rw [if_pos rfl, he]
    rfl
  | succ t ih =>
    intro ht
    show cumAt cfg emb j k t + lenAt cfg emb j k (t + 1) = _
    rw [ih (by omega)]
    unfold lenAt
    rw [if_neg (by omega), hlen (t + 1) (by omega) ht]
    show _ = ((cumLen cs e t + (cs.getD (t + 1) []).length : Nat) : Int)
    push_cast
    ring

theorem maskedCum_nonneg (cfg : StopConfig) (emb : List (List Int)) (cs : List Str)
    (j k t : Nat) (ht : t < emb.length)
    (hlen : ∀ u, 1 ≤ u → u < emb.length →
      tokenLenOf (emb.getD u []) = ((cs.getD u []).length : Int)) :
    0 ≤ maskedCumAt cfg emb j k t := by
  unfold maskedCumAt
  by_cases hm : maskAt cfg emb j k t = true
  · rw [if_pos hm]
    have hm0 := (maskAt_true_iff cfg emb j k t).mp hm 0 (Nat.zero_le t)
    have he0 : 0 < endLenSlot cfg (emb.getD 0 []) j k := by
      unfold matchAt at hm0
      rw [if_pos rfl] at hm0
      exact of_decide_eq_true hm0
    have hcumge : ∀ t2, t2 < emb.length →
        endLenSlot cfg (emb.getD 0 []) j k ≤ cumAt cfg emb j k t2 := by
      intro t2
      induction t2 with
      | zero =>
        intro ht2
        show _ ≤ lenAt cfg emb j k 0
        unfold lenAt
        rw [if_pos rfl]
      | succ t2 ih =>
        intro ht2
        have h1 := ih (by omega)
        have h2 : 0 ≤ lenAt cfg emb j k (t2 + 1) := by
          unfold lenAt
          rw [if_neg (by omega), hlen (t2 + 1) (by omega) ht2]
          exact Int.natCast_nonneg _
        show _ ≤ cumAt cfg emb j k t2 + lenAt cfg emb j k (t2 + 1)
        omega
    have := hcumge t ht
    omega
  · rw [if_neg hm]

theorem stringMatched_iff (cfg : StopConfig) (emb : List (List Int)) (cs : List Str)
    (j : Nat) (s : Str)
    (hne : 1 ≤ emb.length) (hkne : 1 ≤ cfg.max_valid_end_lens)
    (hcs : cs.length = emb.length)
    (htarget : cfg.target_lens.getD j 0 = (s.length : Int))
    (hlen : ∀ u, 1 ≤ u → u < emb.length →
      tokenLenOf (emb.getD u []) = ((cs.getD u []).length : Int))
    (hend : ∀ k, k < cfg.max_valid_end_lens →
      endLenSlot cfg (emb.getD 0 []) j k = -1 ∨
      ∃ e : Nat, endLenSlot cfg (emb.getD 0 []) j k = (e : Int) ∧
        endOverlapSem (cs.getD 0 []) s e)
    (hendall : ∀ e : Nat, endOverlapSem (cs.getD 0 []) s e →
      ∃ k, k < cfg.max_valid_end_lens ∧ endLenSlot cfg (emb.getD 0 []) j k = (e : Int))
    (hpos : ∀ u, 1 ≤ u → u < emb.length → ∀ k, k < cfg.max_valid_positions →
      validPosSlot cfg (emb.getD u []) j k = -1 ∨
      ∃ p : Nat, validPosSlot cfg (emb.getD u []) j k = (p : Int) ∧
        validPosSem (cs.getD u []) s p)
    (hposall : ∀ u, 1 ≤ u → u < emb.length → ∀ p : Nat,
      validPosSem (cs.getD u []) s p →
      ∃ k, k < cfg.max_valid_positions ∧
        validPosSlot cfg (emb.getD u []) j k = (p : Int)) :
    ∃ b, stringMatched cfg emb j = some b ∧
      (b = true ↔ (s.length = 0 ∨ evalSem s cs)) := by
  have hmem00 : maskedCumAt cfg emb j 0 0 ∈
      (((List.range emb.length).map (fun t =>
        (List.range cfg.max_valid_end_lens).map
          (fun k => maskedCumAt cfg emb j k t))).flatten) :=
    (mem_scan_iff cfg emb j _).mpr ⟨0, hne, 0, hkne, rfl⟩
  obtain ⟨v, hv⟩ := amaxInt_ne_nil _ (List.ne_nil_of_mem hmem00)
  have hvmem := (amaxInt_spec _ v hv).1
  have hvub := (amaxInt_spec _ v hv).2
  unfold stringMatched
  rw [hv]
  refine ⟨_, rfl, ?_⟩
  rw [decide_eq_true_eq, htarget]
  constructor
  · intro hle
    by_cases hL : s.length = 0
    · exact Or.inl hL
    · right
      rcases (amax_ge_iff _ v _ hv).mp hle with ⟨x, hx, hxle⟩
      rcases (mem_scan_iff cfg emb j x).mp hx with ⟨t, ht, k, hk, rfl⟩
      have hm : maskAt cfg emb j k t = true := by
        by_contra hm
        rw [Bool.not_eq_true] at hm
        unfold maskedCumAt at hxle
        rw [hm] at hxle
        rw [if_neg (by decide)] at hxle
        omega
      have hcum : (s.length : Int) ≤ cumAt cfg emb j k t := by
        unfold maskedCumAt at hxle
        rw [if_pos hm] at hxle
        exact hxle
      have hmatch := (maskAt_true_iff cfg emb j k t).mp hm
      have he0 : 0 < endLenSlot cfg (emb.getD 0 []) j k := by
        have hm0 := hmatch 0 (Nat.zero_le t)
        unfold matchAt at hm0
        rw [if_pos rfl] at hm0
        exact of_decide_eq_true hm0
      rcases hend k hk with hsent | ⟨e, heq, hesem⟩
      · rw [hsent] at he0
        omega
      · have hcumf := cum_formula cfg emb cs j k e heq hlen
        have he1 : 1 ≤ e := by
          rw [heq] at he0
          omega
        refine ⟨e, t, hesem, by omega, ?_, ?_⟩
        · intro u hu1 hut
          have hu : u < emb.length := by omega
          have hmu := hmatch u hut
          unfold matchAt at hmu
          rw [if_neg (by omega)] at hmu
          rw [List.any_eq_true] at hmu
          obtain ⟨k2, hk2mem, hbeq⟩ := hmu
          have hk2 : k2 < cfg.max_valid_positions := List.mem_range.mp hk2mem
          have hbeq2 : validPosSlot cfg (emb.getD u []) j k2 = cumAt cfg emb j k (u - 1) :=
            eq_of_beq hbeq
          have hcum_u : cumAt cfg emb j k (u - 1) = (cumLen cs e (u - 1) : Int) :=
            hcumf (u - 1) (by omega)
          rcases hpos u hu1 hu k2 hk2 with hsent | ⟨p, hpeq, hpsem⟩
          · rw [hcum_u] at hbeq2
            rw [hsent] at hbeq2
            have := cumLen_ge cs e (u - 1)
            omega
          · rw [hpeq, hcum_u] at hbeq2
            have hp : p = cumLen cs e (u - 1) := by omega
            rw [← hp]
            exact hpsem
        · rw [hcumf t ht] at hcum
          omega
  · intro hOr
    by_cases hL : s.length = 0
    · rcases (mem_scan_iff cfg emb j v).mp hvmem with ⟨t, ht, k, hk, hveq⟩
      have := maskedCum_nonneg cfg emb cs j k t ht hlen
      omega
    · have hsem : evalSem s cs := by
        rcases hOr with hL2 | h
        · exact absurd hL2 hL
        · exact h
      obtain ⟨e, t, hesem, htcs, hchain, hLle⟩ := hsem
      have ht : t < emb.length := by omega
      obtain ⟨k, hk, heq⟩ := hendall e hesem
      have hcumf := cum_formula cfg emb cs j k e heq hlen
      have he1 : 1 ≤ e := by
        obtain ⟨q, hq1, hq2, hq3, he, hsl⟩ := hesem
        omega
      have hmt : maskAt cfg emb j k t = true := by
        rw [maskAt_true_iff]
        intro u hu
        by_cases hu0 : u = 0
        · subst hu0
          unfold matchAt
          rw [if_pos rfl, heq]
          exact decide_eq_true (by omega)
        · have hu1 : 1 ≤ u := by omega
          have huemb : u < emb.length := by omega
          have hps := hchain u hu1 hu
          obtain ⟨k2, hk2, hk2eq⟩ := hposall u hu1 huemb _ hps
          unfold matchAt
          rw [if_neg hu0]
          rw [List.any_eq_true]
          refine ⟨k2, List.mem_range.mpr hk2, ?_⟩
          rw [hk2eq, hcumf (u - 1) (by omega)]
          exact beq_self_eq_true _
      have hxmem : maskedCumAt cfg emb j k t ∈
          (((List.range emb.length).map (fun t =>
            (List.range cfg.max_valid_end_lens).map
              (fun k => maskedCumAt cfg emb j k t))).flatten) :=
        (mem_scan_iff cfg emb j _).mpr ⟨t, ht, k, hk, rfl⟩
      have hxval : (s.length : Int) ≤ maskedCumAt cfg emb j k t := by
        unfold maskedCumAt
        rw [if_pos hmt, hcumf t ht]
        omega
      exact le_trans hxval (hvub _ hxmem)

theorem chainOk_nil (s : Str) (pos : Nat) : chainOk s pos [] = (s.length ≤ pos) := rfl

theorem chainOk_cons (s : Str) (pos : Nat) (c : Str) (rest : List Str) :
    chainOk s pos (c :: rest) =
      (s.length ≤ pos ∨ (validPosSem c s pos ∧ chainOk s (pos + c.length) rest)) := rfl

theorem chainOk_of_le (s : Str) (pos : Nat) (ds : List Str) (h : s.length ≤ pos) :
    chainOk s pos ds := by
  cases ds with
  | nil => exact h
  | cons d ds => exact Or.inl h

theorem take_split {α : Type} (s : List α) (m n : Nat) (h : n ≤ m) :
    s.take m = s.take n ++ (s.take m).drop n := by
  conv_lhs => rw [← List.take_append_drop n (s.take m)]
  rw [List.take_take, Nat.min_eq_left h]

theorem reverse_flatten_cons (d : Str) (ds : List Str) :
    (((d :: ds).reverse).flatten) = ((ds.reverse).flatten) ++ d := by
  rw [List.reverse_cons, List.flatten_append]
  simp

theorem chainD1 (s : Str) : ∀ (ds : List Str) (pos : Nat), chainOk s pos ds →
    s.length - pos ≤ ((ds.reverse).flatten).length ∧
    ((ds.reverse).flatten).drop (((ds.reverse).flatten).length - (s.length - pos))
      = s.take (s.length - pos) := by
  intro ds
  induction ds with
  | nil =>
    intro pos h
    rw [chainOk_nil] at h
    constructor
    · simp
      omega
    · have h0 : s.length - pos = 0 := by omega
      rw [h0]
      simp
  | cons d ds ih =>
    intro pos h
    rw [chainOk_cons] at h
    rw [reverse_flatten_cons]
    rcases h with hle | ⟨hvp, hch⟩
    · have h0 : s.length - pos = 0 := by omega
      rw [h0]
      constructor
      · omega
      · rw [Nat.sub_zero, List.drop_length]
        simp
    · obtain ⟨ih1, ih2⟩ := ih (pos + d.length) hch
      obtain ⟨hp1, hpL, hslice⟩ := hvp
      have harith : s.length - (pos + d.length) = s.length - pos - d.length := by omega
      rw [harith] at ih1 ih2
      rw [List.length_append]
      by_cases hd : s.length - pos ≤ d.length
      · have hmin : min d.length (s.length - pos) = s.length - pos := by omega
        rw [hmin, Nat.sub_self, List.drop_zero] at hslice
        constructor
        · omega
        · rw [List.drop_append_eq_append_drop]
          rw [List.drop_of_length_le (by omega), List.nil_append]
          have h3 : ((ds.reverse).flatten).length + d.length - (s.length - pos)
              - ((ds.reverse).flatten).length = d.length - (s.length - pos) := by omega
          rw [h3]
          exact hslice.symm
      · have hmin : min d.length (s.length - pos) = d.length := by omega
        rw [hmin, Nat.sub_self, List.drop_zero] at hslice
        constructor
        · omega
        · rw [List.drop_append_eq_append_drop]
          have h3 : ((ds.reverse).flatten).length + d.length - (s.length - pos)
              - ((ds.reverse).flatten).length = 0 := by omega
          rw [h3, List.drop_zero]
          have h4 : ((ds.reverse).flatten).length + d.length - (s.length - pos)
              = ((ds.reverse).flatten).length - (s.length - pos - d.length) := by omega
          rw [h4, ih2]
          rw [take_split s (s.length - pos) (s.length - pos - d.length) (by omega)]
          rw [hslice]

theorem chainD2 (s : Str) : ∀ (ds : List Str) (pos : Nat), 1 ≤ pos →
    s.length - pos ≤ ((ds.reverse).flatten).length →
    ((ds.reverse).flatten).drop (((ds.reverse).flatten).length - (s.length - pos))
      = s.take (s.length - pos) →
    chainOk s pos ds := by
  intro ds
  induction ds with
  | nil =>
    intro pos hp hlen hsl
    rw [chainOk_nil]
    simp at hlen
    omega
  | cons d ds ih =>
    intro pos hp hlen hsl
    by_cases hLp : s.length ≤ pos
    · exact chainOk_of_le s pos (d :: ds) hLp
    · rw [chainOk_cons]
      rw [reverse_flatten_cons, List.length_append] at hlen hsl
      by_cases hd : s.length - pos ≤ d.length
      · rw [List.drop_append_eq_append_drop,
          List.drop_of_length_le (by omega), List.nil_append] at hsl
        have h3 : ((ds.reverse).flatten).length + d.length - (s.length - pos)
            - ((ds.reverse).flatten).length = d.length - (s.length - pos) := by omega
        rw [h3] at hsl
        refine Or.inr ⟨⟨hp, by omega, ?_⟩, ?_⟩
        · have hmin : min d.length (s.length - pos) = s.length - pos := by omega
          rw [hmin, Nat.sub_self, List.drop_zero]
          exact hsl.symm
        · exact chainOk_of_le s (pos + d.length) ds (by omega)
      · rw [List.drop_append_eq_append_drop] at hsl
        have h3 : ((ds.reverse).flatten).length + d.length - (s.length - pos)
            - ((ds.reverse).flatten).length = 0 := by omega
        have h4 : ((ds.reverse).flatten).length + d.length - (s.length - pos)
            = ((ds.reverse).flatten).length - (s.length - pos - d.length) := by omega
        rw [h3, List.drop_zero, h4] at hsl
        rw [take_split s (s.length - pos) (s.length - pos - d.length) (by omega)] at hsl
        have hl1 : (((ds.reverse).flatten).drop
            (((ds.reverse).flatten).length - (s.length - pos - d.length))).length
            = (s.take (s.length - pos - d.length)).length := by
          rw [List.length_drop, List.length_take]
          omega
        obtain ⟨hA, hB⟩ := List.append_inj hsl hl1
        refine Or.inr ⟨⟨hp, by omega, ?_⟩, ?_⟩
        · have hmin : min d.length (s.length - pos) = d.length := by omega
          rw [hmin, Nat.sub_self, List.drop_zero]
          exact hB.symm
        · refine ih (pos + d.length) (by omega) (by omega) ?_
          have harith : s.length - (pos + d.length) = s.length - pos - d.length := by omega
          rw [harith]
          exact hA

theorem evalSem_iff_chain (s : Str) (cs : List Str) (hne : cs ≠ []) :
    evalSem s cs ↔ ∃ e, endOverlapSem (cs.getD 0 []) s e ∧ chainOk s e (cs.drop 1) := by
  constructor
  · rintro ⟨e, t, hesem, ht, hchain, hLle⟩
    refine ⟨e, hesem, ?_⟩
    have key : ∀ m d, d ≤ t → t - d = m → chainOk s (cumLen cs e d) (cs.drop (d + 1)) := by
      intro m
      induction m with
      | zero =>
        intro d hdt hm
        have hdt2 : d = t := by omega
        subst hdt2
        exact chainOk_of_le s _ _ hLle
      | succ m ih =>
        intro d hdt hm
        have hd1 : d + 1 ≤ t := by omega
        have hdlen : d + 1 < cs.length := by omega
        rw [List.drop_eq_getElem_cons hdlen, chainOk_cons]
        have hvp2 : validPosSem (cs[d + 1]) s (cumLen cs e d) := by
          have hv := hchain (d + 1) (by omega) hd1
          rw [List.getD_eq_getElem cs [] hdlen] at hv
          exact hv
        have hstep : cumLen cs e d + (cs[d + 1]).length = cumLen cs e (d + 1) := by
          show _ = cumLen cs e d + (cs.getD (d + 1) []).length
          rw [List.getD_eq_getElem cs [] hdlen]
        refine Or.inr ⟨hvp2, ?_⟩
        rw [hstep]
        exact ih (d + 1) hd1 (by omega)
    exact key t 0 (Nat.zero_le t) (by omega)
  · rintro ⟨e, hesem, hch⟩
    have key : ∀ m d, d < cs.length → cs.length - (d + 1) = m →
        chainOk s (cumLen cs e d) (cs.drop (d + 1)) →
        ∃ t, d ≤ t ∧ t < cs.length ∧
          (∀ u, d + 1 ≤ u → u ≤ t → validPosSem (cs.getD u []) s (cumLen cs e (u - 1))) ∧
          s.length ≤ cumLen cs e t := by
      intro m
      induction m with
      | zero =>
        intro d hd hm hch2
        have hdrop : cs.drop (d + 1) = [] := List.drop_of_length_le (by omega)
        rw [hdrop, chainOk_nil] at hch2
        refine ⟨d, Nat.le_refl d, hd, ?_, hch2⟩
        intro u hu1 hu2
        exact absurd (le_trans hu1 hu2) (by omega)
      | succ m ih =>
        intro d hd hm hch2
        have hdlen : d + 1 < cs.length := by omega
        rw [List.drop_eq_getElem_cons hdlen, chainOk_cons] at hch2
        rcases hch2 with hle | ⟨hvp, hch3⟩
        · refine ⟨d, Nat.le_refl d, hd, ?_, hle⟩
          intro u hu1 hu2
          exact absurd (le_trans hu1 hu2) (by omega)
        · have hstep : cumLen cs e d + (cs[d + 1]).length = cumLen cs e (d + 1) := by
            show _ = cumLen cs e d + (cs.getD (d + 1) []).length
            rw [List.getD_eq_getElem cs [] hdlen]
          rw [hstep] at hch3
          obtain ⟨t, ht1, ht2, ht3, ht4⟩ := ih (d + 1) hdlen (by omega) hch3
          refine ⟨t, by omega, ht2, ?_, ht4⟩
          intro u hu1 hu2
          by_cases hud : u = d + 1
          · subst hud
            rw [List.getD_eq_getElem cs [] hdlen]
            have harr : d + 1 - 1 = d := rfl
            rw [harr]
            exact hvp
          · exact ht3 u (by omega) hu2
    obtain ⟨t, ht1, ht2, ht3, ht4⟩ := key (cs.length - 1) 0
      (List.length_pos_of_ne_nil hne) (by
        have := List.length_pos_of_ne_nil hne
        omega) hch
    exact ⟨e, t, hesem, ht2, fun u hu1 hu2 => ht3 u hu1 hu2, ht4⟩

theorem chain_iff_occurs (s c0 : Str) (rest : List Str) (hc0 : c0 ≠ []) :
    (s.length = 0 ∨ ∃ e, endOverlapSem c0 s e ∧ chainOk s e rest) ↔
    occursEndingIn s (((c0 :: rest).reverse).flatten) c0.length := by
  have hc0len : 1 ≤ c0.length := by
    cases c0 with
    | nil => exact absurd rfl hc0
    | cons a l => simp
  rw [reverse_flatten_cons]
  unfold occursEndingIn
  constructor
  · rintro (hL0 | ⟨e, hesem, hch⟩)
    · refine ⟨((rest.reverse).flatten).length + c0.length, by omega,
        by rw [List.length_append], by rw [List.length_append]; omega, ?_⟩
      rw [hL0, List.take_zero]
      exact (List.length_eq_zero.mp hL0).symm
    · obtain ⟨q, hq1, hq2, hq3, he, hslice⟩ := hesem
      obtain ⟨hD1a, hD1b⟩ := chainD1 s rest e hch
      by_cases hqL : q ≤ s.length
      · have hemin : e = q := by omega
        rw [hemin] at hD1a hD1b
        refine ⟨((rest.reverse).flatten).length + q, by omega,
          by rw [List.length_append]; omega, by rw [List.length_append]; omega, ?_⟩
        have hidx : ((rest.reverse).flatten).length + q - s.length
            = ((rest.reverse).flatten).length - (s.length - q) := by omega
        rw [hidx, List.drop_append_eq_append_drop]
        have hz : ((rest.reverse).flatten).length - (s.length - q)
            - ((rest.reverse).flatten).length = 0 := by omega
        rw [hz, List.drop_zero, hD1b]
        rw [List.take_append_eq_append_take]
        have hlt : (s.take (s.length - q)).length = s.length - q := by
          rw [List.length_take]
          omega
        rw [List.take_of_length_le (by rw [hlt]; omega), hlt]
        have hq4 : s.length - (s.length - q) = q := by omega
        rw [hq4]
        have hs2 : c0.take q = s.drop (s.length - q) := by
          have h5 := hslice
          rw [show min q s.length = q from by omega] at h5
          rw [Nat.sub_self, List.drop_zero] at h5
          exact h5
        rw [hs2, List.take_append_drop]
      · have hemin : e = s.length := by omega
        refine ⟨((rest.reverse).flatten).length + q, by omega,
          by rw [List.length_append]; omega, by rw [List.length_append]; omega, ?_⟩
        have hidx : ((rest.reverse).flatten).length + q - s.length
            = ((rest.reverse).flatten).length + (q - s.length) := by omega
        rw [hidx, List.drop_append]
        have hs2 : (c0.take q).drop (q - s.length) = s := by
          have h5 := hslice
          rw [show min q s.length = s.length from by omega] at h5
          rw [Nat.sub_self, List.drop_zero] at h5
          exact h5
        conv_rhs => rw [← hs2]
        rw [List.drop_take]
        rw [show q - (q - s.length) = s.length from by omega]
  · rintro ⟨p, hpL, hpW, hpm, hslice⟩
    rw [List.length_append] at hpW hpm
    by_cases hL0 : s.length = 0
    · exact Or.inl hL0
    · right
      have hq1 : 1 ≤ p - ((rest.reverse).flatten).length := by omega
      have hq2 : p - ((rest.reverse).flatten).length ≤ c0.length := by omega
      by_cases hqL : s.length ≤ p - ((rest.reverse).flatten).length
      · refine ⟨min (p - ((rest.reverse).flatten).length) s.length,
          ⟨p - ((rest.reverse).flatten).length, hq1, hq2, by omega, rfl, ?_⟩, ?_⟩
        · rw [show min (p - ((rest.reverse).flatten).length) s.length = s.length
            from by omega]
          rw [Nat.sub_self, List.drop_zero]
          have hidx : p - s.length = ((rest.reverse).flatten).length
              + (p - ((rest.reverse).flatten).length - s.length) := by omega
          rw [hidx, List.drop_append] at hslice
          conv_rhs => rw [← hslice]
          rw [List.drop_take]
          rw [show p - ((rest.reverse).flatten).length
            - (p - ((rest.reverse).flatten).length - s.length) = s.length
            from by omega]
        · rw [show min (p - ((rest.reverse).flatten).length) s.length = s.length
            from by omega]
          exact chainOk_of_le s s.length rest (Nat.le_refl _)
      · have hidx : p - s.length = ((rest.reverse).flatten).length
            - (s.length - (p - ((rest.reverse).flatten).length)) := by omega
        rw [hidx, List.drop_append_eq_append_drop] at hslice
        have hz : ((rest.reverse).flatten).length
            - (s.length - (p - ((rest.reverse).flatten).length))
            - ((rest.reverse).flatten).length = 0 := by omega
        rw [hz, List.drop_zero] at hslice
        rw [List.take_append_eq_append_take] at hslice
        have hlt : (((rest.reverse).flatten).drop
            (((rest.reverse).flatten).length
              - (s.length - (p - ((rest.reverse).flatten).length)))).length
            = s.length - (p - ((rest.reverse).flatten).length) := by
          rw [List.length_drop]
          omega
        rw [List.take_of_length_le (by rw [hlt]; omega), hlt] at hslice
        have hq4 : s.length - (s.length - (p - ((rest.reverse).flatten).length))
            = p - ((rest.reverse).flatten).length := by omega
        rw [hq4] at hslice
        conv at hslice =>
          rhs
          rw [← List.take_append_drop
            (s.length - (p - ((rest.reverse).flatten).length)) s]
        obtain ⟨hA, hB⟩ := List.append_inj hslice (by
          rw [List.length_drop, List.length_take]
          omega)
        refine ⟨min (p - ((rest.reverse).flatten).length) s.length,
          ⟨p - ((rest.reverse).flatten).length, hq1, hq2, by omega, rfl, ?_⟩, ?_⟩
        all_goals
          rw [show min (p - ((rest.reverse).flatten).length) s.length
            = p - ((rest.reverse).flatten).length from by omega]
        · rw [Nat.sub_self, List.drop_zero]
          exact hB
        · refine chainD2 s rest (p - ((rest.reverse).flatten).length) hq1 (by omega) ?_
          rw [hA]

theorem create_facts (token_list : List Str) (tok_indices : List Nat)
    (stop_strings : List Str) (vec : List (List Int)) (mvp mvel : Nat)
    (hc : _stop_string_create_embedding_vec token_list tok_indices stop_strings
        = some (vec, mvp, mvel)) :
    (∀ t0 ∈ token_list, t0 ≠ []) ∧ 1 ≤ stop_strings.length ∧ 1 ≤ mvel ∧
    (∃ s2 ∈ stop_strings, 2 ≤ s2.length) := by
  obtain ⟨tvp, teo, hg, hm1, hm2, hfold⟩ :=
    create_inv token_list tok_indices stop_strings vec mvp mvel hc
  unfold _stop_string_get_matching_positions at hg
  rw [Option.map_eq_some'] at hg
  obtain ⟨cleaned, hseq, hpair⟩ := hg
  rw [seqOpt_eq_some_iff] at hseq
  obtain ⟨hcl, hnn⟩ := cleaned_eq token_list cleaned hseq
  subst hcl
  dsimp only at hpair
  injection hpair with htvp hteo
  refine ⟨hnn, ?_, ?_, ?_⟩
  · rcases stop_strings with _ | ⟨s, ss⟩
    · exfalso
      rw [← htvp] at hm1
      simp [maxNat] at hm1
    · simp
  · obtain ⟨x, hx⟩ := List.exists_mem_of_ne_nil _ (maxNat_ne_nil _ _ hm2)
    have hxle := maxNat_le _ _ hm2 x hx
    rw [List.mem_flatten] at hx
    obtain ⟨lm, hlm, hxlm⟩ := hx
    rcases List.mem_map.mp hlm with ⟨d, hd, rfl⟩
    rcases List.mem_map.mp hxlm with ⟨e, he, rfl⟩
    rw [← hteo] at hd
    rcases List.mem_map.mp hd with ⟨s, hs, rfl⟩
    rw [List.mem_filterMap] at he
    obtain ⟨e0, he0, hfe⟩ := he
    by_cases hemp : ((tokenAlignment e0.1.1 e0.1.2 s).2).isEmpty
    · rw [if_pos hemp] at hfe
      exact Option.noConfusion hfe
    · rw [if_neg hemp] at hfe
      have he2 : e = (e0.2, (tokenAlignment e0.1.1 e0.1.2 s).2) := (Option.some.inj hfe).symm
      subst he2
      have hxle2 : ((tokenAlignment e0.1.1 e0.1.2 s).2).length ≤ mvel := hxle
      cases hlst : (tokenAlignment e0.1.1 e0.1.2 s).2 with
      | nil => exact absurd (by rw [hlst]; rfl) hemp
      | cons a l =>
        rw [hlst] at hxle2
        simp only [List.length_cons] at hxle2
        omega
  · obtain ⟨x, hx⟩ := List.exists_mem_of_ne_nil _ (maxNat_ne_nil _ _ hm1)
    rw [List.mem_flatten] at hx
    obtain ⟨lm, hlm, hxlm⟩ := hx
    rcases List.mem_map.mp hlm with ⟨d, hd, rfl⟩
    rcases List.mem_map.mp hxlm with ⟨e, he, rfl⟩
    rw [← htvp] at hd
    rcases List.mem_map.mp hd with ⟨s, hs, rfl⟩
    rw [List.mem_filterMap] at he
    obtain ⟨e0, he0, hfe⟩ := he
    by_cases hemp : ((tokenAlignment e0.1.1 e0.1.2 s).1).isEmpty
    · rw [if_pos hemp] at hfe
      exact Option.noConfusion hfe
    · refine ⟨s, hs, ?_⟩
      cases hlst : (tokenAlignment e0.1.1 e0.1.2 s).1 with
      | nil => exact absurd (by rw [hlst]; rfl) hemp
      | cons a l =>
        have hmem : a ∈ (tokenAlignment e0.1.1 e0.1.2 s).1 := by
          rw [hlst]
          exact List.mem_cons_self a l
        rw [tokenAlignment_eq, List.mem_filterMap] at hmem
        obtain ⟨i, himem, hstep⟩ := hmem
        rw [intRange_mem] at himem
        rw [alignStep_fst_eq_some] at hstep
        obtain ⟨h1, h2, h3⟩ := hstep
        obtain ⟨h4, h5⟩ := himem
        omega

theorem mk_inv (token_list : List Str) (tok_indices : List Nat) (stop_strings : List Str)
    (cfg : StopConfig)
    (hmk : StopStringCriteria_mk token_list tok_indices stop_strings = some cfg) :
    ∃ K, _stop_string_create_embedding_vec token_list tok_indices stop_strings
        = some (cfg.embedding_vec, cfg.max_valid_positions, cfg.max_valid_end_lens) ∧
      maxNat (stop_strings.map List.length) = some K ∧
      cfg.num_stop_strings = stop_strings.length ∧
      cfg.maximum_token_len = K ∧
      cfg.target_lens = stop_strings.map (fun s => (s.length : Int)) := by
  unfold StopStringCriteria_mk at hmk
  simp only [Option.bind_eq_some, Option.map_eq_some'] at hmk
  obtain ⟨v, hcr, mlen, hml, hcfg⟩ := hmk
  subst hcfg
  refine ⟨mlen, ?_, hml, rfl, rfl, rfl⟩
  rw [hcr]

theorem tokenOf_spec (token_list : List Str) (tok_indices : List Nat)
    (hlen : token_list.length = tok_indices.length) (i : Nat) (hi : i ∈ tok_indices) :
    ∃ idx : Nat,
      (token_list.zip tok_indices)[idx]? = some (tokenOf token_list tok_indices i, i) := by
  cases hf : (token_list.zip tok_indices).find? (fun e => e.2 == i) with
  | none =>
    rw [List.find?_eq_none] at hf
    rw [List.mem_iff_getElem] at hi
    obtain ⟨idx, hidx, hval⟩ := hi
    have hidx2 : idx < token_list.length := by omega
    have hz : (token_list.zip tok_indices)[idx]? = some (token_list[idx], i) := by
      rw [List.getElem?_zip_eq_some]
      constructor
      · exact List.getElem?_eq_getElem hidx2
      · rw [List.getElem?_eq_getElem hidx, hval]
    have hmem := List.getElem?_mem hz
    have hcontra := hf _ hmem
    simp at hcontra
  | some e =>
    have hbeq := List.find?_some hf
    have hmem := List.mem_of_find?_eq_some hf
    have he2 : e.2 = i := by simpa using hbeq
    rw [List.mem_iff_getElem] at hmem
    obtain ⟨idx, hidx, hval⟩ := hmem
    refine ⟨idx, ?_⟩
    rw [List.getElem?_eq_getElem hidx, hval]
    unfold tokenOf
    rw [hf]
    show some e = some (e.1, i)
    rw [← he2]

theorem spec_iff_exists (stop_strings texts : List Str) :
    specMatchOverlapFinal stop_strings texts = true ↔
      ∃ s ∈ stop_strings, occursEndingIn s (texts.flatten) ((texts.getLastD []).length) := by
  unfold specMatchOverlapFinal
  dsimp only
  rw [List.any_eq_true]
  constructor
  · rintro ⟨s, hs, hinner⟩
    rw [List.any_eq_true] at hinner
    obtain ⟨p, hpmem, hp⟩ := hinner
    rw [List.mem_range] at hpmem
    rw [Bool.and_eq_true, Bool.and_eq_true] at hp
    obtain ⟨⟨hp1, hp2⟩, hp3⟩ := hp
    exact ⟨s, hs, p, of_decide_eq_true hp1, by omega, of_decide_eq_true hp2, eq_of_beq hp3⟩
  · rintro ⟨s, hs, p, h1, h2, h3, h4⟩
    refine ⟨s, hs, ?_⟩
    rw [List.any_eq_true]
    refine ⟨p, List.mem_range.mpr (by omega), ?_⟩
    rw [Bool.and_eq_true, Bool.and_eq_true]
    exact ⟨⟨decide_eq_true h1, decide_eq_true h3⟩, beq_iff_eq.mpr h4⟩

theorem sliceLast_map {α β : Type} (f : α → β) (n : Nat) (l : List α) :
    (sliceLast n l).map f = sliceLast n (l.map f) := by
  unfold sliceLast
  by_cases h : n = 0
  · rw [if_pos h, if_pos h]
  · rw [if_neg h, if_neg h, List.map_drop, List.length_map]

theorem reverse_getD_zero {α : Type} (l : List α) (d : α) :
    (l.reverse).getD 0 d = l.getLastD d := by
  rw [List.getD_eq_getElem?_getD, ← List.head?_eq_getElem?, List.head?_reverse,
    List.getLastD_eq_getLast?]

theorem getLastD_irrel {α : Type} (l : List α) (h : l ≠ []) (d1 d2 : α) :
    l.getLastD d1 = l.getLastD d2 := by
  cases l with
  | nil => exact absurd rfl h
  | cons a tl => rw [List.getLastD_cons, List.getLastD_cons]

theorem getLastD_drop {α : Type} : ∀ (l : List α) (n : Nat) (d : α), n < l.length →
    (l.drop n).getLastD d = l.getLastD d := by
  intro l
  induction l with
  | nil =>
    intro n d h
    simp at h
  | cons a tl ih =>
    intro n d h
    cases n with
    | zero => rfl
    | succ m =>
      have hm : m < tl.length := by simpa using h
      have hne : tl ≠ [] := by
        intro hh
        rw [hh] at hm
        simp at hm
      show (tl.drop m).getLastD d = _
      rw [ih m d hm, List.getLastD_cons]
      exact getLastD_irrel tl hne d a

theorem flatten_ge_last (l : List Str) (hall : ∀ c ∈ l, 1 ≤ c.length) (hne : l ≠ []) :
    (l.length - 1) + (l.getLastD []).length ≤ (l.flatten).length := by
  induction l with
  | nil => exact absurd rfl hne
  | cons c tl ih =>
    cases tl with
    | nil => simp
    | cons d tl2 =>
      have h2 := ih (fun x hx => hall x (List.mem_cons_of_mem c hx)) (List.cons_ne_nil d tl2)
      have hc := hall c (List.mem_cons_self c (d :: tl2))
      rw [List.flatten_cons, List.length_append, List.getLastD_cons]
      rw [getLastD_irrel (d :: tl2) (List.cons_ne_nil d tl2) c []]
      simp only [List.length_cons] at h2 ⊢
      omega

theorem occurs_window_iff (s : Str) (texts : List Str) (K : Nat) (hK1 : 1 ≤ K)
    (hsK : s.length ≤ K) (hall : ∀ c ∈ texts, 1 ≤ c.length) (hne : texts ≠ []) :
    occursEndingIn s ((sliceLast K texts).flatten) ((texts.getLastD []).length) ↔
    occursEndingIn s (texts.flatten) ((texts.getLastD []).length) := by
  by_cases hKlen : texts.length ≤ K
  · have hid : sliceLast K texts = texts := by
      unfold sliceLast
      rw [if_neg (by omega), show texts.length - K = 0 from by omega, List.drop_zero]
    rw [hid]
  · have hsl : sliceLast K texts = texts.drop (texts.length - K) := by
      unfold sliceLast
      rw [if_neg (by omega)]
    rw [hsl]
    have hDlt : texts.length - K < texts.length := by omega
    have hwlen : (texts.drop (texts.length - K)).length = K := by
      rw [List.length_drop]
      omega
    have hwne : texts.drop (texts.length - K) ≠ [] := by
      intro hh
      rw [hh] at hwlen
      simp at hwlen
      omega
    have hlast : (texts.drop (texts.length - K)).getLastD []
        = texts.getLastD [] := getLastD_drop texts (texts.length - K) [] hDlt
    have hVge := flatten_ge_last (texts.drop (texts.length - K))
      (fun c hc => hall c (List.mem_of_mem_drop hc)) hwne
    rw [hlast, hwlen] at hVge
    have hWfull : texts.flatten
        = (texts.take (texts.length - K)).flatten
          ++ (texts.drop (texts.length - K)).flatten := by
      conv_lhs => rw [← List.take_append_drop (texts.length - K) texts]
      rw [List.flatten_append]
    rw [hWfull]
    unfold occursEndingIn
    constructor
    · rintro ⟨p, h1, h2, h3, h4⟩
      refine ⟨((texts.take (texts.length - K)).flatten).length + p, by omega,
        by rw [List.length_append]; omega, by rw [List.length_append]; omega, ?_⟩
      have hidx : ((texts.take (texts.length - K)).flatten).length + p - s.length
          = ((texts.take (texts.length - K)).flatten).length + (p - s.length) := by omega
      rw [hidx, List.drop_append]
      exact h4
    · rintro ⟨p, h1, h2, h3, h4⟩
      rw [List.length_append] at h2 h3
      have hpB : ((texts.take (texts.length - K)).flatten).length + s.length ≤ p := by
        omega
      refine ⟨p - ((texts.take (texts.length - K)).flatten).length, by omega,
        by omega, by omega, ?_⟩
      have hidx : p - s.length = ((texts.take (texts.length - K)).flatten).length
          + (p - ((texts.take (texts.length - K)).flatten).length - s.length) := by omega
      rw [hidx, List.drop_append] at h4
      exact h4

theorem getD_pad_cases (lst : List Int) (k : Nat) :
    lst.getD k (-1) ∈ lst ∨ lst.getD k (-1) = -1 := by
  by_cases hk : k < lst.length
  · left
    rw [List.getD_eq_getElem lst (-1) hk]
    exact List.getElem_mem hk
  · right
    exact List.getD_eq_default lst (-1) (by omega)

theorem mem_getD_pad (lst : List Int) (x : Int) (hx : x ∈ lst) :
    ∃ k, k < lst.length ∧ lst.getD k (-1) = x := by
  rw [List.mem_iff_getElem] at hx
  obtain ⟨k, hk, hval⟩ := hx
  refine ⟨k, hk, ?_⟩
  rw [List.getD_eq_getElem lst (-1) hk]
  exact hval

theorem sliceLast_ne_nil {α : Type} (n : Nat) (l : List α) (h : l ≠ []) :
    sliceLast n l ≠ [] := by
  unfold sliceLast
  by_cases hn : n = 0
  · rw [if_pos hn]
    exact h
  · rw [if_neg hn]
    intro hh
    have h1 : l.length ≠ 0 := by
      intro h0
      exact h (List.length_eq_zero.mp h0)
    have h2 := congrArg List.length hh
    rw [List.length_drop] at h2
    simp at h2
    omega

theorem sliceLast_subset {α : Type} (n : Nat) (l : List α) (a : α)
    (h : a ∈ sliceLast n l) : a ∈ l := by
  unfold sliceLast at h
  by_cases hn : n = 0
  · rw [if_pos hn] at h
    exact h
  · rw [if_neg hn] at h
    exact List.mem_of_mem_drop h

theorem sliceLast_getLastD {α : Type} (n : Nat) (l : List α) (d : α) (h : l ≠ []) :
    (sliceLast n l).getLastD d = l.getLastD d := by
  unfold sliceLast
  by_cases hn : n = 0
  · rw [if_pos hn]
  · rw [if_neg hn]
    have h1 : l.length ≠ 0 := by
      intro h0
      exact h (List.length_eq_zero.mp h0)
    exact getLastD_drop l (l.length - n) d (by omega)

theorem getLastD_map {α β : Type} (f : α → β) (l : List α) :
    l ≠ [] → ∀ (d : β) (d2 : α), (l.map f).getLastD d = f (l.getLastD d2) := by
  induction l with
  | nil =>
    intro h
    exact absurd rfl h
  | cons a tl ih =>
    intro h d d2
    cases tl with
    | nil => rfl
    | cons b tl2 =>
      rw [List.map_cons, List.getLastD_cons, List.getLastD_cons]
      exact ih (List.cons_ne_nil b tl2) (f a) a

theorem getLastD_mem {α : Type} (l : List α) :
    l ≠ [] → ∀ d : α, l.getLastD d ∈ l := by
  induction l with
  | nil =>
    intro h
    exact absurd rfl h
  | cons a tl ih =>
    intro h d
    cases tl with
    | nil => exact List.mem_cons_self a []
    | cons b tl2 =>
      rw [List.getLastD_cons]
      exact List.mem_cons_of_mem a (ih (List.cons_ne_nil b tl2) a)

theorem tokenOf_mem (token_list : List Str) (tok_indices : List Nat)
    (hlen : token_list.length = tok_indices.length) (i : Nat) (hi : i ∈ tok_indices) :
    tokenOf token_list tok_indices i ∈ token_list := by
  obtain ⟨idx, hidx⟩ := tokenOf_spec token_list tok_indices hlen i hi
  exact (List.of_mem_zip (List.getElem?_mem hidx)).1

theorem evalWindow_sem (token_list : List Str) (tok_indices : List Nat)
    (stop_strings : List Str) (cfg : StopConfig)
    (hmk : StopStringCriteria_mk token_list tok_indices stop_strings = some cfg)
    (hnd : tok_indices.Nodup) (hlen : token_list.length = tok_indices.length)
    (window : List Nat) (hwne : window ≠ [])
    (hv : ∀ i ∈ window, i ∈ tok_indices) :
    ∃ b, evalWindow cfg window = some b ∧
      (b = true ↔ ∃ s ∈ stop_strings, occursEndingIn s
        ((window.map (fun i => cleanupF (tokenOf token_list tok_indices i))).flatten)
        (((window.map (fun i => cleanupF (tokenOf token_list tok_indices i))).getLastD
          []).length)) := by
  obtain ⟨K, hcr, hml, hS, hK, htl⟩ := mk_inv token_list tok_indices stop_strings cfg hmk
  obtain ⟨htok_ne, hS1, hmvel1, hs2⟩ :=
    create_facts token_list tok_indices stop_strings cfg.embedding_vec
      cfg.max_valid_positions cfg.max_valid_end_lens hcr
  have hrowP : ∀ i ∈ tok_indices,
      cfg.embedding_vec[i]? = some ((cfg.embedding_vec[i]?).getD []) ∧
      ((cfg.embedding_vec[i]?).getD []).length
        = stop_strings.length * (cfg.max_valid_positions + cfg.max_valid_end_lens) + 1 ∧
      (∀ j k, j < stop_strings.length → k < cfg.max_valid_positions →
        ((cfg.embedding_vec[i]?).getD [])[cfg.max_valid_positions * j + k]?
          = some (((alignOf (tokenOf token_list tok_indices i)
              (stop_strings.getD j [])).1).getD k (-1))) ∧
      (∀ j k, j < stop_strings.length → k < cfg.max_valid_end_lens →
        ((cfg.embedding_vec[i]?).getD
          [])[cfg.max_valid_positions * stop_strings.length
            + cfg.max_valid_end_lens * j + k]?
          = some (((alignOf (tokenOf token_list tok_indices i)
              (stop_strings.getD j [])).2).getD k (-1))) ∧
      ((cfg.embedding_vec[i]?).getD
        [])[stop_strings.length * (cfg.max_valid_positions + cfg.max_valid_end_lens)]?
        = some ((tokenOf token_list tok_indices i).length : Int) ∧
      (∀ j, j < stop_strings.length →
        ((alignOf (tokenOf token_list tok_indices i) (stop_strings.getD j [])).1).length
          ≤ cfg.max_valid_positions ∧
        ((alignOf (tokenOf token_list tok_indices i) (stop_strings.getD j [])).2).length
          ≤ cfg.max_valid_end_lens) := by
    intro i hi
    obtain ⟨idx, hidx⟩ := tokenOf_spec token_list tok_indices hlen i hi
    obtain ⟨r0, hr0, hlen0, hpos0, hend0, hlast0, hbnd0⟩ :=
      table_row_spec token_list tok_indices stop_strings cfg.embedding_vec
        cfg.max_valid_positions cfg.max_valid_end_lens hcr hnd hlen idx _ _ hidx
    have hA : (cfg.embedding_vec[i]?).getD [] = r0 := by
      rw [hr0]
      rfl
    rw [hA]
    exact ⟨hr0, hlen0, hpos0, hend0, hlast0, hbnd0⟩
  have hwrevne : window.reverse ≠ [] := by
    intro hh
    rw [List.reverse_eq_nil_iff] at hh
    exact hwne hh
  have hlenpos : 0 < (window.reverse).length := List.length_pos_of_ne_nil hwrevne
  have hvrev : ∀ i ∈ window.reverse, i ∈ tok_indices :=
    fun i hi => hv i (List.mem_reverse.mp hi)
  have hemb : seqOpt ((window.reverse).map (fun i => cfg.embedding_vec[i]?))
      = some ((window.reverse).map (fun i => (cfg.embedding_vec[i]?).getD [])) := by
    rw [seqOpt_eq_some_iff, List.map_map]
    apply List.map_congr_left
    intro i hi
    exact (hrowP i (hvrev i hi)).1
  have hSM : ∀ j, j < stop_strings.length →
      ∃ b, stringMatched cfg
          ((window.reverse).map (fun i => (cfg.embedding_vec[i]?).getD [])) j = some b ∧
        (b = true ↔ ((stop_strings.getD j []).length = 0 ∨
          evalSem (stop_strings.getD j [])
            ((window.reverse).map
              (fun i => cleanupF (tokenOf token_list tok_indices i))))) := by
    intro j hj
    apply stringMatched_iff
    · rw [List.length_map]
      exact hlenpos
    · exact hmvel1
    · rw [List.length_map, List.length_map]
    · rw [htl]
      exact getD_map_lt2 stop_strings _ j 0 [] hj
    · intro u hu1 hu
      rw [List.length_map] at hu
      have himem := hvrev _ (List.getElem_mem hu)
      obtain ⟨h1, h2, h3, h4, h5, h6⟩ := hrowP _ himem
      rw [getD_map_lt (window.reverse) _ u [] hu, getD_map_lt (window.reverse) _ u [] hu]
      unfold tokenLenOf
      rw [h2]
      simp only [Nat.add_sub_cancel]
      rw [List.getD_eq_getElem?_getD, h5]
      rw [cleanupF_length]
      rfl
    · intro k hk
      have himem := hvrev _ (List.getElem_mem hlenpos)
      obtain ⟨h1, h2, h3, h4, h5, h6⟩ := hrowP _ himem
      rw [getD_map_lt (window.reverse) _ 0 [] hlenpos,
        getD_map_lt (window.reverse) _ 0 [] hlenpos]
      unfold endLenSlot
      rw [hS, List.getD_eq_getElem?_getD, h4 j k hj hk, Option.getD_some]
      rcases getD_pad_cases ((alignOf (tokenOf token_list tok_indices
          (window.reverse)[0]) (stop_strings.getD j [])).2) k with hmem | hsent
      · right
        have hcltok : (tokenOf token_list tok_indices (window.reverse)[0]).length
            = (cleanupF (tokenOf token_list tok_indices (window.reverse)[0])).length :=
          (cleanupF_length _).symm
        rw [show (alignOf (tokenOf token_list tok_indices (window.reverse)[0])
              (stop_strings.getD j [])).2
            = (tokenAlignment (tokenOf token_list tok_indices (window.reverse)[0])
              (cleanupF (tokenOf token_list tok_indices (window.reverse)[0])).reverse
              (stop_strings.getD j [])).2 from rfl] at hmem
        rw [end_mem_iff _ _ _ hcltok] at hmem
        exact hmem
      · left
        exact hsent
    · intro e hsem
      have himem := hvrev _ (List.getElem_mem hlenpos)
      obtain ⟨h1, h2, h3, h4, h5, h6⟩ := hrowP _ himem
      rw [getD_map_lt (window.reverse) _ 0 [] hlenpos] at hsem
      have hcltok : (tokenOf token_list tok_indices (window.reverse)[0]).length
          = (cleanupF (tokenOf token_list tok_indices (window.reverse)[0])).length :=
        (cleanupF_length _).symm
      have hmm : ((e : Int)) ∈ (alignOf (tokenOf token_list tok_indices
          (window.reverse)[0]) (stop_strings.getD j [])).2 := by
        rw [show (alignOf (tokenOf token_list tok_indices (window.reverse)[0])
              (stop_strings.getD j [])).2
            = (tokenAlignment (tokenOf token_list tok_indices (window.reverse)[0])
              (cleanupF (tokenOf token_list tok_indices (window.reverse)[0])).reverse
              (stop_strings.getD j [])).2 from rfl]
        rw [end_mem_iff _ _ _ hcltok]
        exact ⟨e, rfl, hsem⟩
      obtain ⟨k, hkl, hval⟩ := mem_getD_pad _ _ hmm
      refine ⟨k, lt_of_lt_of_le hkl (h6 j hj).2, ?_⟩
      rw [getD_map_lt (window.reverse) _ 0 [] hlenpos]
      unfold endLenSlot
      rw [hS, List.getD_eq_getElem?_getD, h4 j k hj (lt_of_lt_of_le hkl (h6 j hj).2),
        Option.getD_some]
      exact hval
    · intro u hu1 hu k hk
      rw [List.length_map] at hu
      have himem := hvrev _ (List.getElem_mem hu)
      obtain ⟨h1, h2, h3, h4, h5, h6⟩ := hrowP _ himem
      rw [getD_map_lt (window.reverse) _ u [] hu, getD_map_lt (window.reverse) _ u [] hu]
      unfold validPosSlot
      rw [List.getD_eq_getElem?_getD, h3 j k hj hk, Option.getD_some]
      rcases getD_pad_cases ((alignOf (tokenOf token_list tok_indices
          (window.reverse)[u]) (stop_strings.getD j [])).1) k with hmem | hsent
      · right
        have hcltok : (tokenOf token_list tok_indices (window.reverse)[u]).length
            = (cleanupF (tokenOf token_list tok_indices (window.reverse)[u])).length :=
          (cleanupF_length _).symm
        rw [show (alignOf (tokenOf token_list tok_indices (window.reverse)[u])
              (stop_strings.getD j [])).1
            = (tokenAlignment (tokenOf token_list tok_indices (window.reverse)[u])
              (cleanupF (tokenOf token_list tok_indices (window.reverse)[u])).reverse
              (stop_strings.getD j [])).1 from rfl] at hmem
        rw [pos_mem_iff _ _ _ hcltok] at hmem
        exact hmem
      · left
        exact hsent
    · intro u hu1 hu p hsem
      rw [List.length_map] at hu
      have himem := hvrev _ (List.getElem_mem hu)
      obtain ⟨h1, h2, h3, h4, h5, h6⟩ := hrowP _ himem
      rw [getD_map_lt (window.reverse) _ u [] hu] at hsem
      have hcltok : (tokenOf token_list tok_indices (window.reverse)[u]).length
          = (cleanupF (tokenOf token_list tok_indices (window.reverse)[u])).length :=
        (cleanupF_length _).symm
      have hmm : ((p : Int)) ∈ (alignOf (tokenOf token_list tok_indices
          (window.reverse)[u]) (stop_strings.getD j [])).1 := by
        rw [show (alignOf (tokenOf token_list tok_indices (window.reverse)[u])
              (stop_strings.getD j [])).1
            = (tokenAlignment (tokenOf token_list tok_indices (window.reverse)[u])
              (cleanupF (tokenOf token_list tok_indices (window.reverse)[u])).reverse
              (stop_strings.getD j [])).1 from rfl]
        rw [pos_mem_iff _ _ _ hcltok]
        exact ⟨p, rfl, hsem⟩
      obtain ⟨k, hkl, hval⟩ := mem_getD_pad _ _ hmm
      refine ⟨k, lt_of_lt_of_le hkl (h6 j hj).1, ?_⟩
      rw [getD_map_lt (window.reverse) _ u [] hu]
      unfold validPosSlot
      rw [List.getD_eq_getElem?_getD, h3 j k hj (lt_of_lt_of_le hkl (h6 j hj).1),
        Option.getD_some]
      exact hval
  have hmatches : seqOpt ((List.range cfg.num_stop_strings).map
      (stringMatched cfg ((window.reverse).map (fun i => (cfg.embedding_vec[i]?).getD []))))
      = some ((List.range cfg.num_stop_strings).map
          (fun j => (stringMatched cfg
            ((window.reverse).map (fun i => (cfg.embedding_vec[i]?).getD []))
            j).getD false)) := by
    rw [seqOpt_eq_some_iff, List.map_map]
    apply List.map_congr_left
    intro j hjm
    obtain ⟨b, heq, hiff⟩ := hSM j (by rw [← hS]; exact List.mem_range.mp hjm)
    show stringMatched cfg
        ((window.reverse).map (fun i => (cfg.embedding_vec[i]?).getD [])) j
      = some ((stringMatched cfg
        ((window.reverse).map (fun i => (cfg.embedding_vec[i]?).getD [])) j).getD false)
    rw [heq]
    rfl
  have hCS : (window.reverse).map (fun i => cleanupF (tokenOf token_list tok_indices i))
      = (window.map (fun i => cleanupF (tokenOf token_list tok_indices i))).reverse :=
    List.map_reverse _ _
  have hWtne : window.map (fun i => cleanupF (tokenOf token_list tok_indices i)) ≠ [] := by
    intro hh
    rw [List.map_eq_nil_iff] at hh
    exact hwne hh
  have hCSne : (window.reverse).map
      (fun i => cleanupF (tokenOf token_list tok_indices i)) ≠ [] := by
    rw [hCS]
    intro hh
    rw [List.reverse_eq_nil_iff] at hh
    exact hWtne hh
  have hc0 : ((window.reverse).map
        (fun i => cleanupF (tokenOf token_list tok_indices i))).getD 0 []
      = (window.map (fun i => cleanupF (tokenOf token_list tok_indices i))).getLastD [] := by
    rw [hCS]
    exact reverse_getD_zero _ []
  have hc0eq : (window.map
        (fun i => cleanupF (tokenOf token_list tok_indices i))).getLastD []
      = cleanupF (tokenOf token_list tok_indices (window.getLastD 0)) :=
    getLastD_map _ window hwne [] 0
  have hconv : ∀ s : Str,
      ((s.length = 0 ∨ evalSem s ((window.reverse).map
          (fun i => cleanupF (tokenOf token_list tok_indices i)))) ↔
        occursEndingIn s
          ((window.map (fun i => cleanupF (tokenOf token_list tok_indices i))).flatten)
          (((window.map
            (fun i => cleanupF (tokenOf token_list tok_indices i))).getLastD
            []).length)) := by
    intro s
    cases hcs0 : (window.reverse).map
        (fun i => cleanupF (tokenOf token_list tok_indices i)) with
    | nil => exact absurd hcs0 hCSne
    | cons c0 rest =>
      have hiff1 := evalSem_iff_chain s ((window.reverse).map
        (fun i => cleanupF (tokenOf token_list tok_indices i))) hCSne
      rw [hcs0] at hiff1
      have hgd : ((c0 :: rest) : List Str).getD 0 [] = c0 := rfl
      have hdr : ((c0 :: rest) : List Str).drop 1 = rest := rfl
      rw [hgd, hdr] at hiff1
      have hc0' : c0 = (window.map
          (fun i => cleanupF (tokenOf token_list tok_indices i))).getLastD [] := by
        rw [← hc0, hcs0]
        exact hgd.symm
      have hc0ne2 : c0 ≠ [] := by
        rw [hc0', hc0eq]
        apply cleanupF_ne_nil
        exact htok_ne _ (tokenOf_mem token_list tok_indices hlen _
          (hv _ (getLastD_mem window hwne 0)))
      have hiff2 := chain_iff_occurs s c0 rest hc0ne2
      have hrev : ((c0 :: rest) : List Str).reverse
          = window.map (fun i => cleanupF (tokenOf token_list tok_indices i)) := by
        rw [← hcs0, hCS, List.reverse_reverse]
      rw [hrev] at hiff2
      have hc0len : c0.length = ((window.map
          (fun i => cleanupF (tokenOf token_list tok_indices i))).getLastD []).length := by
        rw [hc0']
      rw [hc0len] at hiff2
      exact (or_congr_right hiff1).trans hiff2
  refine ⟨((List.range cfg.num_stop_strings).map
      (fun j => (stringMatched cfg ((window.reverse).map
        (fun i => (cfg.embedding_vec[i]?).getD [])) j).getD false)).any id, ?_, ?_⟩
  · unfold evalWindow
    rw [hemb]
    dsimp only
    rw [if_neg (by
      rw [List.length_map]
      omega)]
    rw [hmatches]
  · rw [List.any_eq_true]
    constructor
    · rintro ⟨x, hxmem, hxid⟩
      rcases List.mem_map.mp hxmem with ⟨j, hjm, rfl⟩
      have hj : j < stop_strings.length := by
        rw [← hS]
        exact List.mem_range.mp hjm
      obtain ⟨b, heq, hiff⟩ := hSM j hj
      simp only [id_eq] at hxid
      rw [heq] at hxid
      simp only [Option.getD_some] at hxid
      refine ⟨stop_strings.getD j [], ?_, (hconv (stop_strings.getD j [])).mp (hiff.mp hxid)⟩
      rw [List.getD_eq_getElem stop_strings [] hj]
      exact List.getElem_mem hj
    · rintro ⟨s, hsmem, hocc⟩
      rw [List.mem_iff_getElem] at hsmem
      obtain ⟨j, hj, hsv⟩ := hsmem
      have hsD : stop_strings.getD j [] = s := by
        rw [List.getD_eq_getElem stop_strings [] hj]
        exact hsv
      obtain ⟨b, heq, hiff⟩ := hSM j hj
      refine ⟨_, List.mem_map_of_mem _ (List.mem_range.mpr (by rw [hS]; exact hj)), ?_⟩
      simp only [id_eq]
      rw [heq]
      simp only [Option.getD_some]
      apply hiff.mpr
      apply (hconv (stop_strings.getD j [])).mpr
      rw [hsD]
      exact hocc

/-- C1 (amended): for every vocabulary (nonduplicate ids, one per token) and
stop-string set accepted by construction and every non-empty row of valid
token ids, `__call__` reports the row stopped if and only if some stop
string occurs as a literal substring of the concatenation of the row's
normalized token texts with the occurrence ending strictly inside (or at the
end of) the final token's text — i.e. ending after the final token's first
character position, not necessarily at the end of the sequence. -/
theorem C1_amended (token_list : List Str) (tok_indices : List Nat)
    (stop_strings : List Str) (cfg : StopConfig)
    (hmk : StopStringCriteria_mk token_list tok_indices stop_strings = some cfg)
    (hnd : tok_indices.Nodup) (hlen : token_list.length = tok_indices.length)
    (row : List Nat) (hrne : row ≠ [])
    (hvalid : ∀ i ∈ row, i ∈ tok_indices) :
    evalRow cfg row
      = some (specMatchOverlapFinal stop_strings (rowTexts token_list tok_indices row)) := by
  obtain ⟨K, hcr, hml, hS, hK, htl⟩ := mk_inv token_list tok_indices stop_strings cfg hmk
  obtain ⟨htok_ne, hS1, hmvel1, s2, hs2mem, hs2len⟩ :=
    create_facts token_list tok_indices stop_strings cfg.embedding_vec
      cfg.max_valid_positions cfg.max_valid_end_lens hcr
  have hs2K : s2.length ≤ K :=
    maxNat_le _ K hml s2.length (List.mem_map_of_mem List.length hs2mem)
  have hK1 : 1 ≤ K := by omega
  have hwne : sliceLast K row ≠ [] := sliceLast_ne_nil K row hrne
  have hv : ∀ i ∈ sliceLast K row, i ∈ tok_indices :=
    fun i hi => hvalid i (sliceLast_subset K row i hi)
  obtain ⟨b, heval, hbiff⟩ :=
    evalWindow_sem token_list tok_indices stop_strings cfg hmk hnd hlen
      (sliceLast K row) hwne hv
  have hmapne : row.map (fun i => cleanupF (tokenOf token_list tok_indices i)) ≠ [] := by
    intro hh
    rw [List.map_eq_nil_iff] at hh
    exact hrne hh
  have hall : ∀ c ∈ row.map (fun i => cleanupF (tokenOf token_list tok_indices i)),
      1 ≤ c.length := by
    intro c hc
    rcases List.mem_map.mp hc with ⟨i, hi, rfl⟩
    exact List.length_pos_of_ne_nil (cleanupF_ne_nil _
      (htok_ne _ (tokenOf_mem token_list tok_indices hlen _ (hvalid _ hi))))
  rw [sliceLast_map] at hbiff
  rw [sliceLast_getLastD K
    (row.map (fun i => cleanupF (tokenOf token_list tok_indices i))) [] hmapne] at hbiff
  have hEx : b = true ↔ specMatchOverlapFinal stop_strings
      (row.map (fun i => cleanupF (tokenOf token_list tok_indices i))) = true := by
    rw [hbiff, spec_iff_exists]
    constructor
    · rintro ⟨s, hs, hocc⟩
      refine ⟨s, hs, ?_⟩
      exact (occurs_window_iff s _ K hK1
        (maxNat_le _ K hml _ (List.mem_map_of_mem List.length hs)) hall hmapne).mp hocc
    · rintro ⟨s, hs, hocc⟩
      refine ⟨s, hs, ?_⟩
      exact (occurs_window_iff s _ K hK1
        (maxNat_le _ K hml _ (List.mem_map_of_mem List.length hs)) hall hmapne).mpr hocc
  have hb : b = specMatchOverlapFinal stop_strings
      (row.map (fun i => cleanupF (tokenOf token_list tok_indices i))) := by
    cases hsv : specMatchOverlapFinal stop_strings
        (row.map (fun i => cleanupF (tokenOf token_list tok_indices i))) with
    | false =>
      rw [hsv] at hEx
      simp at hEx
      exact hEx
    | true =>
      rw [hsv] at hEx
      simp at hEx
      exact hEx
  unfold evalRow
  rw [hK, heval]
  unfold rowTexts
  rw [hb]

/-- C1 (witness): the amended equivalence instantiated on the literal
scenario, row [0, 1] ("st", "op"). -/
theorem C1_witness :
    StopStringCriteria_mk toksA indsA stopsA = some cfgA ∧
    evalRow cfgA [0, 1]
      = some (specMatchOverlapFinal stopsA (rowTexts toksA indsA [0, 1])) :=
  ⟨by decide,
    C1_amended toksA indsA stopsA cfgA (by decide) (by decide) (by decide)
      [0, 1] (by decide) (by decide)⟩
